import Mathlib

/-!
# SimpleVector: a verification development

A shallow embedding of `simple-vector/simple_vector.h`.

* A buffer (`ArrayPtr<Type>`) is the list of the elements of its heap block; the
  length of the list is the allocated length, and the empty list is the
  "no block" state.
* A `SimpleVector<Type>` is its three data members `vector_`, `size_`,
  `capacity_`.  Nothing forces `capacity_` to be the length of the block: that
  is an invariant (`SimpleVector.Valid`) which the operations have to keep.
* Every access of a buffer slot is checked against the allocated length.  An
  access outside the block is undefined behaviour in C++; it is the result
  `Fault.undefinedBehaviour` here.  The exception thrown by `At` is the result
  `Fault.outOfRange`.
* `size_t` values are natural numbers.  A block has at most `PTRDIFF_MAX`
  elements, so `size_ + 1` and `capacity_ * 2` cannot wrap for a vector whose
  capacity is the length of its block.  The narrowing of the insertion offset to
  `int` in the private `Insert` overloads is modelled (`toInt32`).
* `std::move` of an element is modelled as a copy: the slots moved from are
  overwritten later, discarded with their block, or left outside the live
  range.
-/

namespace SimpleVectorModel

/-- The two ways an operation can fail to produce a value. -/
inductive Fault where
  /-- An access outside the allocated block, or an iterator range that is not a range. -/
  | undefinedBehaviour
  /-- The exception `std::out_of_range`. -/
  | outOfRange
  deriving DecidableEq, Repr

/-- Result of running a piece of the program. -/
abbrev Res (α : Type) := Except Fault α

deriving instance DecidableEq for Except

/-! ## ArrayPtr -/

/-- Modelled from the spec: `array_ptr.h` is not among the sources.  The spec's
Buffer "owns a single heap-allocated block of exactly N elements (N may be 0,
representing no block)"; the block is the list of its elements. -/
abbrev ArrayPtr (T : Type) := List T

namespace ArrayPtr

variable {T : Type}

/-- Modelled from the spec: `ArrayPtr(length)` "allocates and default-constructs
`length` elements; length 0 must not allocate". -/
def make [Inhabited T] (length : Nat) : ArrayPtr T := List.replicate length default

/-- Modelled from the spec: the default-constructed `ArrayPtr` holds no block. -/
def empty : ArrayPtr T := []

/-- Modelled from the spec: indexed read access, "caller must guarantee
offset < length - out-of-range access is undefined behavior". -/
def read (a : ArrayPtr T) (i : Nat) : Res T :=
  match a[i]? with
  | some x => .ok x
  | none => .error .undefinedBehaviour

/-- Modelled from the spec: indexed write access through the reference returned
by `operator[]`; outside the block it is undefined behaviour. -/
def write (a : ArrayPtr T) (i : Nat) (x : T) : Res (ArrayPtr T) :=
  if i < a.length then .ok (a.set i x) else .error .undefinedBehaviour

end ArrayPtr

/-! ## Standard algorithms over buffers

Iterators are `Type*`, so an iterator into a buffer is an offset into its block.
-/

section Algorithms

variable {T : Type}

/-- The loop of `std::fill(first, last, value)`, `n = last - first` slots to go. -/
def fillLoop (value : T) : Nat → Nat → ArrayPtr T → Res (ArrayPtr T)
  | 0, _, buf => .ok buf
  | n + 1, first, buf =>
    match buf.write first value with
    | .ok buf1 => fillLoop value n (first + 1) buf1
    | .error e => .error e

/-- Embeds `std::fill(first, last, value)` on one buffer: `for (; first != last; ++first) *first = value;`.
With `last` before `first` the loop runs off the block. -/
def std_fill (buf : ArrayPtr T) (first last : Nat) (value : T) : Res (ArrayPtr T) :=
  if first ≤ last then fillLoop value (last - first) first buf else .error .undefinedBehaviour

/-- The loop of `std::copy` / `std::move` from one block into another one:
`*d_first++ = *first++`, `n = last - first` elements to go. -/
def copyLoop (src : ArrayPtr T) : Nat → Nat → Nat → ArrayPtr T → Res (ArrayPtr T)
  | 0, _, _, dst => .ok dst
  | n + 1, first, d_first, dst =>
    match src.read first with
    | .ok x =>
      match dst.write d_first x with
      | .ok dst1 => copyLoop src n (first + 1) (d_first + 1) dst1
      | .error e => .error e
    | .error e => .error e

/-- Embeds `std::copy(first, last, d_first)` and the algorithm `std::move(first, last, d_first)`,
source range in `src`, destination in another block `dst`. -/
def std_copy (src : ArrayPtr T) (first last : Nat) (dst : ArrayPtr T) (d_first : Nat) :
    Res (ArrayPtr T) :=
  if first ≤ last then copyLoop src (last - first) first d_first dst
  else .error .undefinedBehaviour

/-- The loop of the algorithm `std::move(first, last, d_first)` when source and
destination lie in the same block: every step reads the block as the earlier
steps left it. -/
def moveLoop : Nat → Nat → Nat → ArrayPtr T → Res (ArrayPtr T)
  | 0, _, _, buf => .ok buf
  | n + 1, first, d_first, buf =>
    match buf.read first with
    | .ok x =>
      match buf.write d_first x with
      | .ok buf1 => moveLoop n (first + 1) (d_first + 1) buf1
      | .error e => .error e
    | .error e => .error e

/-- The algorithm `std::move(first, last, d_first)` inside one block. -/
def std_move (buf : ArrayPtr T) (first last d_first : Nat) : Res (ArrayPtr T) :=
  if first ≤ last then moveLoop (last - first) first d_first buf
  else .error .undefinedBehaviour

/-- The loop of `std::copy_backward` / `std::move_backward` inside one block:
`while (first != last) *(--d_last) = *(--last);`, `n = last - first` elements to go. -/
def copyBackwardLoop : Nat → Nat → Nat → ArrayPtr T → Res (ArrayPtr T)
  | 0, _, _, buf => .ok buf
  | _ + 1, 0, _, _ => .error .undefinedBehaviour
  | _ + 1, _ + 1, 0, _ => .error .undefinedBehaviour
  | n + 1, last + 1, d_last + 1, buf =>
    match buf.read last with
    | .ok x =>
      match buf.write d_last x with
      | .ok buf1 => copyBackwardLoop n last d_last buf1
      | .error e => .error e
    | .error e => .error e

/-- Embeds `std::copy_backward(first, last, d_last)` inside one block. -/
def std_copy_backward (buf : ArrayPtr T) (first last d_last : Nat) : Res (ArrayPtr T) :=
  if first ≤ last then copyBackwardLoop (last - first) last d_last buf
  else .error .undefinedBehaviour

/-- The loop of `std::equal(first1, last1, first2)`, `n = last1 - first1` elements
to go.  The call requires the second range to hold as many elements as the first
one, and the comparison may read all of them whatever it finds (for arithmetic
elements it is one `memcmp` over the whole range), so every slot of both ranges
is read: a slot outside its block is undefined behaviour, also after a pair of
elements that differ. -/
def equalLoop [DecidableEq T] (a b : ArrayPtr T) : Nat → Nat → Nat → Res Bool
  | 0, _, _ => .ok true
  | n + 1, first1, first2 =>
    match a.read first1 with
    | .ok x =>
      match b.read first2 with
      | .ok y =>
        match equalLoop a b n (first1 + 1) (first2 + 1) with
        | .ok rest => .ok (decide (x = y) && rest)
        | .error e => .error e
      | .error e => .error e
    | .error e => .error e

/-- Embeds `std::equal(first1, last1, first2)`. -/
def std_equal [DecidableEq T] (a : ArrayPtr T) (first1 last1 : Nat) (b : ArrayPtr T)
    (first2 : Nat) : Res Bool :=
  if first1 ≤ last1 then equalLoop a b (last1 - first1) first1 first2
  else .error .undefinedBehaviour

/-- The loop of `std::lexicographical_compare(first1, last1, first2, last2)`:
`n1` and `n2` elements are left in the two ranges. -/
def lexLoop [LT T] [DecidableRel (fun (x y : T) => x < y)] (a b : ArrayPtr T) :
    Nat → Nat → Nat → Nat → Res Bool
  | 0, n2, _, _ => .ok (decide (n2 ≠ 0))
  | _ + 1, 0, _, _ => .ok false
  | n1 + 1, n2 + 1, first1, first2 =>
    match a.read first1 with
    | .ok x =>
      match b.read first2 with
      | .ok y =>
        if x < y then .ok true
        else if y < x then .ok false
        else lexLoop a b n1 n2 (first1 + 1) (first2 + 1)
      | .error e => .error e
    | .error e => .error e

/-- Embeds `std::lexicographical_compare(first1, last1, first2, last2)`. -/
def std_lexicographical_compare [LT T] [DecidableRel (fun (x y : T) => x < y)]
    (a : ArrayPtr T) (first1 last1 : Nat) (b : ArrayPtr T) (first2 last2 : Nat) : Res Bool :=
  if first1 ≤ last1 ∧ first2 ≤ last2 then lexLoop a b (last1 - first1) (last2 - first2) first1 first2
  else .error .undefinedBehaviour

end Algorithms

/-! ## SimpleVector -/

/-- Embeds `ReserveProxyObj`: carries the capacity to reserve. -/
structure ReserveProxyObj where
  capacity_ : Nat
  deriving DecidableEq, Repr

/-- Embeds `ReserveProxyObj::ReserveCapasity()`. -/
def ReserveProxyObj.ReserveCapasity (p : ReserveProxyObj) : Nat := p.capacity_

/-- The free function `Reserve(capacity_to_reserve)`. -/
def Reserve (capacity_to_reserve : Nat) : ReserveProxyObj := { capacity_ := capacity_to_reserve }

/-- The data members of `SimpleVector<Type>` (lines 290-292). -/
structure SimpleVector (T : Type) where
  vector_ : ArrayPtr T
  size_ : Nat
  capacity_ : Nat
  deriving DecidableEq, Repr

namespace SimpleVector

variable {T : Type}

/-- Embeds `SimpleVector() noexcept = default`: no block, `size_ = 0`, `capacity_ = 0`. -/
def new : SimpleVector T := { vector_ := ArrayPtr.empty, size_ := 0, capacity_ := 0 }

/-- Embeds `GetSize()`. -/
def GetSize (v : SimpleVector T) : Nat := v.size_

/-- Embeds `GetCapacity()`. -/
def GetCapacity (v : SimpleVector T) : Nat := v.capacity_

/-- Embeds `IsEmpty()`. -/
def IsEmpty (v : SimpleVector T) : Bool := v.size_ == 0

/-- Embeds `swap(other)`: exchanges the blocks, the capacities and the sizes.  Returns
the receiver and `other` as they are afterwards. -/
def swap (v other : SimpleVector T) : SimpleVector T × SimpleVector T :=
  ({ vector_ := other.vector_, size_ := other.size_, capacity_ := other.capacity_ },
   { vector_ := v.vector_, size_ := v.size_, capacity_ := v.capacity_ })

/-- Embeds `explicit SimpleVector(size_t size)`: a block of `size` elements, then
`std::fill(&vector_[0], &vector_[size_], 0)`; the `0` is the value `Type{}` of
the arithmetic element types the constructor compiles for. -/
def ofSize [Inhabited T] (size : Nat) : Res (SimpleVector T) :=
  match std_fill (ArrayPtr.make size : ArrayPtr T) 0 size default with
  | .ok buf => .ok { vector_ := buf, size_ := size, capacity_ := size }
  | .error e => .error e

/-- Embeds `SimpleVector(size_t size, const Type& value)`. -/
def ofSizeValue [Inhabited T] (size : Nat) (value : T) : Res (SimpleVector T) :=
  match std_fill (ArrayPtr.make size : ArrayPtr T) 0 size value with
  | .ok tmp => .ok { vector_ := tmp, size_ := size, capacity_ := size }
  | .error e => .error e

/-- The loop of the initializer-list constructor: `tmp[i++] = element`. -/
def initLoop : List T → Nat → ArrayPtr T → Res (ArrayPtr T)
  | [], _, tmp => .ok tmp
  | element :: rest, i, tmp =>
    match tmp.write i element with
    | .ok tmp1 => initLoop rest (i + 1) tmp1
    | .error e => .error e

/-- Embeds `SimpleVector(std::initializer_list<Type> init)`. -/
def ofList [Inhabited T] (init : List T) : Res (SimpleVector T) :=
  match initLoop init 0 (ArrayPtr.make init.length) with
  | .ok tmp => .ok { vector_ := tmp, size_ := init.length, capacity_ := init.length }
  | .error e => .error e

/-- Embeds `SimpleVector(const SimpleVector& other)`: the members are first set from
`other`, then `tmp(other.GetSize())` is filled with `std::copy` and swapped in,
so the members set first end up in `tmp`, which is destroyed. -/
def copy [Inhabited T] (other : SimpleVector T) : Res (SimpleVector T) :=
  let this0 : SimpleVector T :=
    { vector_ := ArrayPtr.empty, size_ := other.GetSize, capacity_ := other.GetCapacity }
  match ofSize other.GetSize with
  | .ok tmp =>
    match std_copy other.vector_ 0 other.size_ tmp.vector_ 0 with
    | .ok buf => .ok (this0.swap { tmp with vector_ := buf }).1
    | .error e => .error e
  | .error e => .error e

/-- Embeds `SimpleVector(SimpleVector&& other)`: the block is moved out of `other`,
whose counters are exchanged with 0.  Returns the new vector and `other`. -/
def moveConstruct (other : SimpleVector T) : SimpleVector T × SimpleVector T :=
  ({ vector_ := other.vector_, size_ := other.size_, capacity_ := other.capacity_ },
   { vector_ := ArrayPtr.empty, size_ := 0, capacity_ := 0 })

/-- Embeds `operator=(SimpleVector&& rhs) = default`: member-wise move assignment.  The
block moves (modelled from the spec: the source `ArrayPtr` "becomes the
empty/no-block state"); moving a `size_t` copies it.  Returns the receiver and
`rhs`. -/
def moveAssign (_v rhs : SimpleVector T) : SimpleVector T × SimpleVector T :=
  ({ vector_ := rhs.vector_, size_ := rhs.size_, capacity_ := rhs.capacity_ },
   { vector_ := ArrayPtr.empty, size_ := rhs.size_, capacity_ := rhs.capacity_ })

/-- Embeds `operator[](index)`: unchecked access to the block. -/
def get (v : SimpleVector T) (index : Nat) : Res T := v.vector_.read index

/-- Assignment through `operator[](index)`. -/
def set (v : SimpleVector T) (index : Nat) (x : T) : Res (SimpleVector T) :=
  match v.vector_.write index x with
  | .ok buf => .ok { v with vector_ := buf }
  | .error e => .error e

/-- Embeds `At(index)`. -/
def At (v : SimpleVector T) (index : Nat) : Res T :=
  if index < v.size_ then v.vector_.read index else .error .outOfRange

/-- Embeds `Clear()`. -/
def Clear (v : SimpleVector T) : SimpleVector T := { v with size_ := 0 }

/-- Embeds `PopBack()`. -/
def PopBack (v : SimpleVector T) : SimpleVector T :=
  if !v.IsEmpty then { v with size_ := v.size_ - 1 } else v

/-- Embeds `Resize(new_size)`.  The growing branch allocates `tmp(capacity_)` and moves
the `size_` live elements into it; the other branch runs
`for (auto i = size_; i < new_size; ++i) vector_[i] = Type{}`, which is the loop
of a fill over `new_size - size_` slots (none when `new_size <= size_`). -/
def Resize [Inhabited T] (v : SimpleVector T) (new_size : Nat) : Res (SimpleVector T) :=
  if new_size > v.capacity_ then
    let capacity := max new_size (v.capacity_ * 2)
    match std_copy v.vector_ 0 v.size_ (ArrayPtr.make capacity) 0 with
    | .ok tmp => .ok { vector_ := tmp, size_ := new_size, capacity_ := capacity }
    | .error e => .error e
  else
    match fillLoop default (new_size - v.size_) v.size_ v.vector_ with
    | .ok buf => .ok { vector_ := buf, size_ := new_size, capacity_ := v.capacity_ }
    | .error e => .error e

/-- Embeds `Reserve(new_capacity)`: the loop `tmp[i] = std::move(vector_[i])` runs over
the `size_` live elements. -/
def Reserve [Inhabited T] (v : SimpleVector T) (new_capacity : Nat) : Res (SimpleVector T) :=
  if new_capacity ≤ v.capacity_ then .ok v
  else
    match copyLoop v.vector_ v.size_ 0 0 (ArrayPtr.make new_capacity) with
    | .ok tmp => .ok { vector_ := tmp, size_ := v.size_, capacity_ := new_capacity }
    | .error e => .error e

/-- Embeds `PushBack(const Type& item)` (and `PushBack(Type&& item)`, which differs only
in moving the item): `Resize(size_ + 1)`, then `vector_[size_ - 1] = item`. -/
def PushBack [Inhabited T] (v : SimpleVector T) (item : T) : Res (SimpleVector T) :=
  match v.Resize (v.size_ + 1) with
  | .ok v1 =>
    match v1.vector_.write (v1.size_ - 1) item with
    | .ok buf => .ok { v1 with vector_ := buf }
    | .error e => .error e
  | .error e => .error e

/-- Conversion of a non-negative `ptrdiff_t` offset to the `int` parameter of the
private `Insert` overloads (two's complement, 32 bits): the residue modulo
`2 ^ 32` when it is below `2 ^ 31`, and the residue minus `2 ^ 32` otherwise. -/
def toInt32 (n : Nat) : Int :=
  if n % 2 ^ 32 < 2 ^ 31 then Int.ofNat (n % 2 ^ 32)
  else Int.negSucc (2 ^ 32 - 1 - n % 2 ^ 32)

/-- The private `Insert(int index, const Type& value)` (and its `Type&&` twin):
`std::copy_backward(begin() + index, end(), end() + 1)`, then
`vector_[index] = value`.  A negative `index` puts `begin() + index` before the
block. -/
def InsertInt (v : SimpleVector T) (index : Int) (value : T) : Res (SimpleVector T) :=
  match index with
  | .ofNat i =>
    match std_copy_backward v.vector_ i v.size_ (v.size_ + 1) with
    | .ok buf =>
      match buf.write i value with
      | .ok buf1 => .ok { v with vector_ := buf1 }
      | .error e => .error e
    | .error e => .error e
  | .negSucc _ => .error .undefinedBehaviour

/-- Embeds `Insert(ConstIterator pos, const Type& value)` (and its `Type&&` twin), with
`pos = begin() + insertable`.  Returns the vector and the offset of the returned
iterator `&vector_[insertable]`. -/
def Insert [Inhabited T] (v : SimpleVector T) (insertable : Nat) (value : T) :
    Res (SimpleVector T × Nat) :=
  if v.capacity_ > v.size_ then
    match v.InsertInt (toInt32 insertable) value with
    | .ok v1 => .ok ({ v1 with size_ := v1.size_ + 1 }, insertable)
    | .error e => .error e
  else
    match v.Resize (v.size_ + 1) with
    | .ok v1 =>
      match v1.InsertInt (toInt32 insertable) value with
      | .ok v2 => .ok (v2, insertable)
      | .error e => .error e
    | .error e => .error e

/-- Embeds `Erase(ConstIterator pos)` with `pos = begin() + offset`:
`std::move(it + 1, end(), it)` and `--size_` when the vector is not empty.
Returns the vector and the offset of the returned iterator `&vector_[pos - begin()]`. -/
def Erase (v : SimpleVector T) (offset : Nat) : Res (SimpleVector T × Nat) :=
  if v.size_ ≠ 0 then
    match std_move v.vector_ (offset + 1) v.size_ offset with
    | .ok buf => .ok ({ v with vector_ := buf, size_ := v.size_ - 1 }, offset)
    | .error e => .error e
  else .ok (v, offset)

/-- Embeds `operator==(lhs, rhs)`: `std::equal(lhs.begin(), lhs.end(), rhs.begin())`. -/
def op_eq [DecidableEq T] (lhs rhs : SimpleVector T) : Res Bool :=
  std_equal lhs.vector_ 0 lhs.size_ rhs.vector_ 0

/-- Embeds `operator!=(lhs, rhs)`. -/
def op_ne [DecidableEq T] (lhs rhs : SimpleVector T) : Res Bool :=
  match op_eq lhs rhs with
  | .ok b => .ok (!b)
  | .error e => .error e

/-- Embeds `SimpleVector(ReserveProxyObj capacity_to_reserve)`: `Reserve` on the
default-initialised members. -/
def ofReserve [Inhabited T] (capacity_to_reserve : ReserveProxyObj) : Res (SimpleVector T) :=
  (new : SimpleVector T).Reserve capacity_to_reserve.ReserveCapasity

/-- Embeds `operator<(lhs, rhs)`. -/
def op_lt [LT T] [DecidableRel (fun (x y : T) => x < y)] (lhs rhs : SimpleVector T) : Res Bool :=
  std_lexicographical_compare lhs.vector_ 0 lhs.size_ rhs.vector_ 0 rhs.size_

/-- Embeds `operator>=(lhs, rhs)`: `!(lhs < rhs)`. -/
def op_ge [LT T] [DecidableRel (fun (x y : T) => x < y)] (lhs rhs : SimpleVector T) : Res Bool :=
  match op_lt lhs rhs with
  | .ok b => .ok (!b)
  | .error e => .error e

/-- Embeds `operator>(lhs, rhs)`: `rhs < lhs`. -/
def op_gt [LT T] [DecidableRel (fun (x y : T) => x < y)] (lhs rhs : SimpleVector T) : Res Bool :=
  op_lt rhs lhs

/-- Embeds `operator<=(lhs, rhs)`: `!(lhs < rhs)`, as the source has it. -/
def op_le [LT T] [DecidableRel (fun (x y : T) => x < y)] (lhs rhs : SimpleVector T) : Res Bool :=
  match op_lt lhs rhs with
  | .ok b => .ok (!b)
  | .error e => .error e

/-- A run of `PushBack` calls, one per element of `items`, in order. -/
def pushAll [Inhabited T] : SimpleVector T → List T → Res (SimpleVector T)
  | v, [] => .ok v
  | v, item :: rest =>
    match v.PushBack item with
    | .ok v1 => pushAll v1 rest
    | .error e => .error e

/-- The call `Insert(begin() + p, x)` followed by `Erase(begin() + p)` on the
same vector. -/
def insertThenErase [Inhabited T] (v : SimpleVector T) (p : Nat) (x : T) :
    Res (SimpleVector T × Nat) :=
  match v.Insert p x with
  | .ok (v1, _) => v1.Erase p
  | .error e => .error e

/-- A mutation of a vector through its public interface: an assignment through
`operator[]`, `PushBack`, `Insert`, `Erase`, `Resize` or `Clear`. -/
inductive Mutation (T : Type) where
  | assign (index : Nat) (x : T)
  | pushBack (x : T)
  | insert (pos : Nat) (x : T)
  | erase (pos : Nat)
  | resize (new_size : Nat)
  | clear

/-- The call of one mutation on a vector. -/
def Mutation.apply [Inhabited T] : Mutation T → SimpleVector T → Res (SimpleVector T)
  | .assign index x, v => v.set index x
  | .pushBack x, v => v.PushBack x
  | .insert pos x, v =>
    match v.Insert pos x with
    | .ok (v1, _) => .ok v1
    | .error e => .error e
  | .erase pos, v =>
    match v.Erase pos with
    | .ok (v1, _) => .ok v1
    | .error e => .error e
  | .resize new_size, v => v.Resize new_size
  | .clear, v => .ok v.Clear

/-- Two vector objects of a program: an original and the copy made from it.
Each owns its block (an `ArrayPtr` cannot be copied), so the state of the
program is the pair of their values. -/
structure Original_and_copy (T : Type) where
  original : SimpleVector T
  duplicate : SimpleVector T
  deriving DecidableEq, Repr

/-- The statement `SimpleVector<Type> C(A)`: the copy constructor reads `A`
through a const reference. -/
def copyConstruct [Inhabited T] (A : SimpleVector T) : Res (Original_and_copy T) :=
  match copy A with
  | .ok C => .ok { original := A, duplicate := C }
  | .error e => .error e

/-- A run of mutations, all of them calls on the copy. -/
def mutateCopy [Inhabited T] : List (Mutation T) → Original_and_copy T → Res (Original_and_copy T)
  | [], st => .ok st
  | m :: rest, st =>
    match m.apply st.duplicate with
    | .ok C1 => mutateCopy rest { st with duplicate := C1 }
    | .error e => .error e

/-- Embeds `operator=(const SimpleVector& rhs)`.  The flag `same_object` is the
outcome of the address test `this == &rhs`: when it holds nothing is done,
otherwise `tmp(rhs)` is copy-constructed and swapped with the receiver.  Returns
the receiver and `rhs` as they are afterwards (`rhs` is read through a const
reference; in a self-assignment it is the receiver). -/
def copyAssign [Inhabited T] (v rhs : SimpleVector T) (same_object : Bool) :
    Res (SimpleVector T × SimpleVector T) :=
  if same_object then .ok (v, v)
  else
    match copy rhs with
    | .ok tmp => .ok ((v.swap tmp).1, rhs)
    | .error e => .error e

/-- The call `v.At(index)` as a step of the program: the receiver afterwards and
the outcome of the call.  The body of `At` assigns no data member and writes no
slot, whether it returns or throws. -/
def AtCall (v : SimpleVector T) (index : Nat) : SimpleVector T × Res T :=
  (v, v.At index)

/-- Whether the call `Resize(new_size)` allocates a new block: the test
`new_size > capacity_` of its first branch, the only place where `Resize`
constructs an `ArrayPtr`. -/
def ResizeAllocates (v : SimpleVector T) (new_size : Nat) : Bool :=
  decide (new_size > v.capacity_)

/-- A run of `PushBack` calls as in `pushAll`, which also counts the calls whose
`Resize(size_ + 1)` allocates a new block. -/
def pushAllCount [Inhabited T] : SimpleVector T → List T → Res (SimpleVector T × Nat)
  | v, [] => .ok (v, 0)
  | v, item :: rest =>
    match v.PushBack item with
    | .ok v1 =>
      match pushAllCount v1 rest with
      | .ok (w, c) => .ok (w, (if v.ResizeAllocates (v.size_ + 1) then 1 else 0) + c)
      | .error e => .error e
    | .error e => .error e

/-- The vector `{1}`. -/
def sample1 : SimpleVector Int := { vector_ := [1], size_ := 1, capacity_ := 1 }

/-- The vector `{2}`. -/
def sample2 : SimpleVector Int := { vector_ := [2], size_ := 1, capacity_ := 1 }

/-- The vector `{1, 2, 3}` as the initializer-list constructor builds it. -/
def sample123 : SimpleVector Int := { vector_ := [1, 2, 3], size_ := 3, capacity_ := 3 }

/-- The vector `{1, 2, 3}` after one `PopBack`: size 2, capacity 3, and the 3 still
in the third slot of the block. -/
def sample12of3 : SimpleVector Int := { vector_ := [1, 2, 3], size_ := 2, capacity_ := 3 }

/-- The vector `{1, 2}`. -/
def sample12 : SimpleVector Int := { vector_ := [1, 2], size_ := 2, capacity_ := 2 }

/-- The vector `{7}`: one element in a block of one slot. -/
def sample7 : SimpleVector Int := { vector_ := [7], size_ := 1, capacity_ := 1 }

/-- The vector `SimpleVector<int> v(3)`: three zeros. -/
def sampleZeros3 : SimpleVector Int := { vector_ := [0, 0, 0], size_ := 3, capacity_ := 3 }

/-- The elements visible through `begin()` .. `end()`: the first `size_` slots of
the block. -/
def live (v : SimpleVector T) : List T := v.vector_.take v.size_

/-- The representation invariant: the size is at most the capacity, and the
capacity is the length of the owned block. -/
def Valid (v : SimpleVector T) : Prop :=
  v.size_ ≤ v.capacity_ ∧ v.capacity_ = v.vector_.length

instance (v : SimpleVector T) : Decidable v.Valid := by
  unfold Valid; infer_instance

/-- The shape of a vector that was default-constructed and then only pushed to,
after `r` allocations of a block: empty with capacity 0 before the first
allocation, and afterwards holding `n >= 1` elements in a block of `2 ^ (r - 1)`
slots with `n <= 2 ^ (r - 1) < 2 * n`. -/
def GrownByPushes (v : SimpleVector T) (r : Nat) : Prop :=
  v.Valid ∧
    ((r = 0 ∧ v.size_ = 0 ∧ v.capacity_ = 0) ∨
      ∃ k, r = k + 1 ∧ v.capacity_ = 2 ^ k ∧ 1 ≤ v.size_ ∧ v.size_ ≤ 2 ^ k ∧
        2 ^ k < 2 * v.size_)

end SimpleVector

/-! ## The loops of the standard algorithms -/


section LoopLemmas

variable {T : Type}

theorem ArrayPtr.read_of_lt (a : ArrayPtr T) (i : Nat) (h : i < a.length) :
    a.read i = .ok a[i] := by
  simp [ArrayPtr.read, List.getElem?_eq_getElem h]

theorem ArrayPtr.write_of_lt (a : ArrayPtr T) (i : Nat) (x : T) (h : i < a.length) :
    a.write i x = .ok (a.set i x) := by
  simp [ArrayPtr.write, h]

theorem ArrayPtr.write_of_ge (a : ArrayPtr T) (i : Nat) (x : T) (h : a.length ≤ i) :
    a.write i x = .error .undefinedBehaviour := by
  simp [ArrayPtr.write, Nat.not_lt.mpr h]

theorem fillLoop_spec (value : T) : ∀ (n first : Nat) (buf : ArrayPtr T),
    first + n ≤ buf.length →
    ∃ r, fillLoop value n first buf = .ok r ∧ r.length = buf.length ∧
      ∀ j, r[j]? = if first ≤ j ∧ j < first + n then some value else buf[j]? := by
  intro n
  induction n with
  | zero =>
    intro first buf _
    refine ⟨buf, rfl, rfl, fun j => ?_⟩
    have : ¬ (first ≤ j ∧ j < first + 0) := by omega
    rw [if_neg this]
  | succ n ih =>
    intro first buf h
    have hlt : first < buf.length := by omega
    obtain ⟨r, hr, hlen, hget⟩ := ih (first + 1) (buf.set first value) (by simp; omega)
    refine ⟨r, ?_, by simpa using hlen, fun j => ?_⟩
    · simp [fillLoop, ArrayPtr.write_of_lt _ _ _ hlt, hr]
    · rw [hget j, List.getElem?_set]
      by_cases h1 : first = j
      · subst h1
        simp [hlt]
      · by_cases h2 : first + 1 ≤ j ∧ j < first + 1 + n
        · have : first ≤ j ∧ j < first + (n + 1) := by omega
          simp [h2, this]
        · have : ¬ (first ≤ j ∧ j < first + (n + 1)) := by omega
          simp [h2, this, h1]

theorem copyLoop_spec (src : ArrayPtr T) : ∀ (n first d_first : Nat) (dst : ArrayPtr T),
    first + n ≤ src.length → d_first + n ≤ dst.length →
    ∃ r, copyLoop src n first d_first dst = .ok r ∧ r.length = dst.length ∧
      ∀ j, r[j]? = if d_first ≤ j ∧ j < d_first + n then src[first + (j - d_first)]?
        else dst[j]? := by
  intro n
  induction n with
  | zero =>
    intro first d_first dst _ _
    refine ⟨dst, rfl, rfl, fun j => ?_⟩
    have : ¬ (d_first ≤ j ∧ j < d_first + 0) := by omega
    rw [if_neg this]
  | succ n ih =>
    intro first d_first dst hs hd
    have hlt : first < src.length := by omega
    have hdl : d_first < dst.length := by omega
    obtain ⟨r, hr, hlen, hget⟩ :=
      ih (first + 1) (d_first + 1) (dst.set d_first src[first]) (by omega) (by simp; omega)
    refine ⟨r, ?_, by simpa using hlen, fun j => ?_⟩
    · simp [copyLoop, ArrayPtr.read_of_lt _ _ hlt, ArrayPtr.write_of_lt _ _ _ hdl, hr]
    · rw [hget j, List.getElem?_set]
      by_cases h1 : d_first = j
      · subst h1
        have : ¬ (d_first + 1 ≤ d_first ∧ d_first < d_first + 1 + n) := by omega
        rw [if_neg this]
        simp [hdl, List.getElem?_eq_getElem hlt]
      · by_cases h2 : d_first + 1 ≤ j ∧ j < d_first + 1 + n
        · have h3 : d_first ≤ j ∧ j < d_first + (n + 1) := by omega
          have h4 : first + 1 + (j - (d_first + 1)) = first + (j - d_first) := by omega
          rw [if_pos h2, if_pos h3, h4]
        · have h3 : ¬ (d_first ≤ j ∧ j < d_first + (n + 1)) := by omega
          rw [if_neg h2, if_neg h3, if_neg h1]

theorem moveLoop_spec : ∀ (n first d_first : Nat) (buf : ArrayPtr T),
    d_first ≤ first → first + n ≤ buf.length →
    ∃ r, moveLoop n first d_first buf = .ok r ∧ r.length = buf.length ∧
      ∀ j, r[j]? = if d_first ≤ j ∧ j < d_first + n then buf[first + (j - d_first)]?
        else buf[j]? := by
  intro n
  induction n with
  | zero =>
    intro first d_first buf _ _
    refine ⟨buf, rfl, rfl, fun j => ?_⟩
    have : ¬ (d_first ≤ j ∧ j < d_first + 0) := by omega
    rw [if_neg this]
  | succ n ih =>
    intro first d_first buf hle hs
    have hlt : first < buf.length := by omega
    have hdl : d_first < buf.length := by omega
    obtain ⟨r, hr, hlen, hget⟩ :=
      ih (first + 1) (d_first + 1) (buf.set d_first buf[first]) (by omega) (by simp; omega)
    refine ⟨r, ?_, by simpa using hlen, fun j => ?_⟩
    · simp [moveLoop, ArrayPtr.read_of_lt _ _ hlt, ArrayPtr.write_of_lt _ _ _ hdl, hr]
    · rw [hget j]
      by_cases h1 : d_first = j
      · subst h1
        have : ¬ (d_first + 1 ≤ d_first ∧ d_first < d_first + 1 + n) := by omega
        rw [if_neg this, List.getElem?_set]
        simp [hdl, List.getElem?_eq_getElem hlt]
      · by_cases h2 : d_first + 1 ≤ j ∧ j < d_first + 1 + n
        · have h3 : d_first ≤ j ∧ j < d_first + (n + 1) := by omega
          have h4 : first + 1 + (j - (d_first + 1)) = first + (j - d_first) := by omega
          have h5 : d_first ≠ first + (j - d_first) := by omega
          rw [if_pos h2, if_pos h3, h4, List.getElem?_set, if_neg h5]
        · have h3 : ¬ (d_first ≤ j ∧ j < d_first + (n + 1)) := by omega
          rw [if_neg h2, if_neg h3, List.getElem?_set, if_neg h1]

theorem copyBackwardLoop_spec : ∀ (n last d_last : Nat) (buf : ArrayPtr T),
    n ≤ last → last ≤ d_last → d_last ≤ buf.length →
    ∃ r, copyBackwardLoop n last d_last buf = .ok r ∧ r.length = buf.length ∧
      ∀ j, r[j]? = if d_last - n ≤ j ∧ j < d_last then buf[last - (d_last - j)]?
        else buf[j]? := by
  intro n
  induction n with
  | zero =>
    intro last d_last buf _ _ _
    refine ⟨buf, by simp [copyBackwardLoop], rfl, fun j => ?_⟩
    have : ¬ (d_last - 0 ≤ j ∧ j < d_last) := by omega
    rw [if_neg this]
  | succ n ih =>
    intro last d_last buf hn hle hd
    obtain ⟨l, rfl⟩ : ∃ l, last = l + 1 := ⟨last - 1, by omega⟩
    obtain ⟨d, rfl⟩ : ∃ d, d_last = d + 1 := ⟨d_last - 1, by omega⟩
    have hlt : l < buf.length := by omega
    have hdl : d < buf.length := by omega
    obtain ⟨r, hr, hlen, hget⟩ :=
      ih l d (buf.set d buf[l]) (by omega) (by omega) (by simp; omega)
    refine ⟨r, ?_, by simpa using hlen, fun j => ?_⟩
    · simp [copyBackwardLoop, ArrayPtr.read_of_lt _ _ hlt, ArrayPtr.write_of_lt _ _ _ hdl, hr]
    · rw [hget j]
      by_cases h1 : d = j
      · subst h1
        have : ¬ (d - n ≤ d ∧ d < d) := by omega
        have h3 : d + 1 - (n + 1) ≤ d ∧ d < d + 1 := by omega
        have h4 : l + 1 - (d + 1 - d) = l := by omega
        rw [if_neg this, if_pos h3, h4, List.getElem?_set]
        simp [hdl, List.getElem?_eq_getElem hlt]
      · by_cases h2 : d - n ≤ j ∧ j < d
        · have h3 : d + 1 - (n + 1) ≤ j ∧ j < d + 1 := by omega
          have h4 : l + 1 - (d + 1 - j) = l - (d - j) := by omega
          have h5 : d ≠ l - (d - j) := by omega
          rw [if_pos h2, if_pos h3, h4, List.getElem?_set, if_neg h5]
        · have h3 : ¬ (d + 1 - (n + 1) ≤ j ∧ j < d + 1) := by omega
          rw [if_neg h2, if_neg h3, List.getElem?_set, if_neg h1]

end LoopLemmas

namespace SimpleVector


section OperationLemmas

variable {T : Type}

theorem get_eq_of_getElem? {v w : SimpleVector T} {i j : Nat}
    (h : w.vector_[i]? = v.vector_[j]?) : w.get i = v.get j := by
  simp [get, ArrayPtr.read, h]

theorem get_eq_ok_of_getElem? {w : SimpleVector T} {i : Nat} {x : T}
    (h : w.vector_[i]? = some x) : w.get i = .ok x := by
  simp [get, ArrayPtr.read, h]

/-- What `Resize` does to a vector that satisfies the representation invariant. -/
theorem Resize_ok [Inhabited T] (v : SimpleVector T) (n : Nat) (hv : v.Valid) :
    ∃ w, v.Resize n = .ok w ∧ w.size_ = n ∧
      w.capacity_ = (if n > v.capacity_ then max n (v.capacity_ * 2) else v.capacity_) ∧
      w.capacity_ = w.vector_.length ∧
      (∀ j, j < v.size_ → w.vector_[j]? = v.vector_[j]?) ∧
      (∀ j, v.size_ ≤ j → j < n → w.vector_[j]? = some default) := by
  obtain ⟨hsc, hcl⟩ := hv
  by_cases hgrow : n > v.capacity_
  · obtain ⟨r, hr, hlen, hget⟩ :=
      copyLoop_spec v.vector_ v.size_ 0 0 (ArrayPtr.make (max n (v.capacity_ * 2)))
        (by omega) (by simp [ArrayPtr.make]; omega)
    refine ⟨{ vector_ := r, size_ := n, capacity_ := max n (v.capacity_ * 2) }, ?_, rfl, ?_, ?_,
      ?_, ?_⟩
    · simp [Resize, hgrow, std_copy, hr]
    · simp [hgrow]
    · simp [hlen, ArrayPtr.make]
    · intro j hj
      have : 0 ≤ j ∧ j < 0 + v.size_ := by omega
      simp only [hget j, if_pos this]
      simp
    · intro j hj hjn
      have : ¬ (0 ≤ j ∧ j < 0 + v.size_) := by omega
      simp only [hget j, if_neg this, ArrayPtr.make]
      rw [List.getElem?_replicate, if_pos]
      have := Nat.le_max_left n (v.capacity_ * 2)
      omega
  · by_cases hle : n ≤ v.size_
    · refine ⟨{ vector_ := v.vector_, size_ := n, capacity_ := v.capacity_ }, ?_, rfl, ?_, hcl,
        fun _ _ => rfl, ?_⟩
      · simp [Resize, hgrow, Nat.sub_eq_zero_of_le hle, fillLoop]
      · simp [hgrow]
      · intro j h1 h2
        omega
    · obtain ⟨r, hr, hlen, hget⟩ :=
        fillLoop_spec (default : T) (n - v.size_) v.size_ v.vector_ (by omega)
      refine ⟨{ vector_ := r, size_ := n, capacity_ := v.capacity_ }, ?_, rfl, ?_, ?_, ?_, ?_⟩
      · simp [Resize, hgrow, hr]
      · simp [hgrow]
      · simp [hlen, hcl]
      · intro j hj
        have : ¬ (v.size_ ≤ j ∧ j < v.size_ + (n - v.size_)) := by omega
        rw [hget j, if_neg this]
      · intro j hj hjn
        have : v.size_ ≤ j ∧ j < v.size_ + (n - v.size_) := by omega
        rw [hget j, if_pos this]

/-- What `PushBack` does to a vector that satisfies the representation invariant. -/
theorem PushBack_ok [Inhabited T] (v : SimpleVector T) (x : T) (hv : v.Valid) :
    ∃ w, v.PushBack x = .ok w ∧ w.size_ = v.size_ + 1 ∧ w.Valid ∧
      w.vector_[v.size_]? = some x ∧
      (∀ j, j < v.size_ → w.vector_[j]? = v.vector_[j]?) := by
  obtain ⟨r, hr, hsize, hcap, hlen, hold, _⟩ := Resize_ok v (v.size_ + 1) hv
  have hle : v.size_ + 1 ≤ r.capacity_ := by
    rw [hcap]
    split
    · exact Nat.le_max_left _ _
    · omega
  have hlt : v.size_ < r.vector_.length := by omega
  refine ⟨{ r with vector_ := r.vector_.set v.size_ x }, ?_, hsize, ?_, ?_, ?_⟩
  · simp [PushBack, hr, hsize, ArrayPtr.write_of_lt _ _ _ hlt]
  · constructor
    · show r.size_ ≤ r.capacity_
      omega
    · show r.capacity_ = (r.vector_.set v.size_ x).length
      simpa using hlen
  · show (r.vector_.set v.size_ x)[v.size_]? = some x
    simp [List.getElem?_set, hlt]
  · intro j hj
    show (r.vector_.set v.size_ x)[j]? = v.vector_[j]?
    have : v.size_ ≠ j := by omega
    rw [List.getElem?_set, if_neg this, hold j hj]

theorem live_length (v : SimpleVector T) (hv : v.Valid) : v.live.length = v.size_ := by
  obtain ⟨h1, h2⟩ := hv
  simp [live]
  omega

theorem live_getElem? (v : SimpleVector T) (j : Nat) :
    v.live[j]? = if j < v.size_ then v.vector_[j]? else none := by
  simp [live, List.getElem?_take]

theorem PushBack_live [Inhabited T] (v : SimpleVector T) (x : T) (hv : v.Valid) :
    ∃ w, v.PushBack x = .ok w ∧ w.size_ = v.size_ + 1 ∧ w.Valid ∧ w.live = v.live ++ [x] := by
  obtain ⟨w, hw, hsize, hval, hnew, hold⟩ := PushBack_ok v x hv
  refine ⟨w, hw, hsize, hval, ?_⟩
  apply List.ext_getElem?
  intro j
  rw [live_getElem?, List.getElem?_append, live_length v hv, live_getElem?, hsize]
  by_cases h1 : j < v.size_
  · have : j < v.size_ + 1 := by omega
    rw [if_pos this, if_pos h1, if_pos h1, hold j h1]
  · by_cases h2 : j = v.size_
    · subst h2
      simp [hnew]
    · have : ¬ j < v.size_ + 1 := by omega
      rw [if_neg this, if_neg h1]
      have h3 : j - v.size_ = (j - v.size_ - 1) + 1 := by omega
      rw [h3]
      simp

theorem pushAll_live [Inhabited T] : ∀ (xs : List T) (v : SimpleVector T), v.Valid →
    ∃ w, pushAll v xs = .ok w ∧ w.size_ = v.size_ + xs.length ∧ w.Valid ∧
      w.live = v.live ++ xs := by
  intro xs
  induction xs with
  | nil =>
    intro v hv
    exact ⟨v, rfl, rfl, hv, by simp⟩
  | cons x rest ih =>
    intro v hv
    obtain ⟨v1, h1, hs1, hv1, hl1⟩ := PushBack_live v x hv
    obtain ⟨w, hw, hs, hvw, hl⟩ := ih v1 hv1
    refine ⟨w, ?_, ?_, hvw, ?_⟩
    · simp [pushAll, h1, hw]
    · rw [hs, hs1, List.length_cons]
      omega
    · rw [hl, hl1]
      simp

theorem new_valid : (new : SimpleVector T).Valid := by
  simp [Valid, new, ArrayPtr.empty]

/-- What `Erase` does at an offset inside the live range. -/
theorem Erase_ok (v : SimpleVector T) (i : Nat) (hv : v.Valid) (hi : i < v.size_) :
    ∃ w, v.Erase i = .ok (w, i) ∧ w.size_ = v.size_ - 1 ∧ w.capacity_ = v.capacity_ ∧
      w.Valid ∧ w.live = v.live.take i ++ v.live.drop (i + 1) := by
  obtain ⟨hsc, hcl⟩ := hv
  obtain ⟨r, hr, hlen, hget⟩ :=
    moveLoop_spec (v.size_ - (i + 1)) (i + 1) i v.vector_ (by omega) (by omega)
  have hne : v.size_ ≠ 0 := by omega
  have hle : i + 1 ≤ v.size_ := hi
  refine ⟨{ v with vector_ := r, size_ := v.size_ - 1 }, ?_, rfl, rfl, ?_, ?_⟩
  · simp [Erase, hne, std_move, hle, hr]
  · constructor
    · show v.size_ - 1 ≤ v.capacity_
      omega
    · show v.capacity_ = r.length
      omega
  · apply List.ext_getElem?
    intro j
    rw [live_getElem?, List.getElem?_append]
    show (if j < v.size_ - 1 then r[j]? else none) = _
    have hll : v.live.length = v.size_ := live_length v ⟨hsc, hcl⟩
    rw [List.length_take, hll, Nat.min_eq_left (Nat.le_of_lt hi), List.getElem?_drop,
      List.getElem?_take, live_getElem?, live_getElem?, hget j]
    by_cases h1 : j < i
    · have h2 : j < v.size_ - 1 := by omega
      have h3 : ¬ (i ≤ j ∧ j < i + (v.size_ - (i + 1))) := by omega
      have h4 : j < v.size_ := by omega
      rw [if_pos h2, if_neg h3, if_pos h1, if_pos h1, if_pos h4]
    · by_cases h2 : j < v.size_ - 1
      · have h3 : i ≤ j ∧ j < i + (v.size_ - (i + 1)) := by omega
        have h4 : i + 1 + (j - i) < v.size_ := by omega
        rw [if_pos h2, if_pos h3, if_neg h1, if_pos h4]
      · have h4 : ¬ i + 1 + (j - i) < v.size_ := by omega
        rw [if_neg h2, if_neg h1, if_neg h4]

end OperationLemmas


section InsertLemmas

variable {T : Type}

theorem toInt32_of_lt (n : Nat) (h : n < 2 ^ 31) : toInt32 n = (n : Int) := by
  unfold toInt32
  have h1 : n % 2 ^ 32 = n := Nat.mod_eq_of_lt (by omega)
  rw [h1, if_pos h]
  rfl

/-- The private `Insert` on a block with room for the shifted range. -/
theorem InsertInt_ok (v : SimpleVector T) (i : Nat) (x : T) (hi : i ≤ v.size_)
    (hroom : v.size_ + 1 ≤ v.vector_.length) :
    ∃ r, v.InsertInt (i : Int) x = .ok { v with vector_ := r } ∧
      r.length = v.vector_.length ∧
      ∀ j, r[j]? = if j = i then some x
        else if i < j ∧ j < v.size_ + 1 then v.vector_[j - 1]? else v.vector_[j]? := by
  obtain ⟨r, hr, hlen, hget⟩ :=
    copyBackwardLoop_spec (v.size_ - i) v.size_ (v.size_ + 1) v.vector_ (by omega) (by omega)
      hroom
  have hlt : i < r.length := by omega
  refine ⟨r.set i x, ?_, by simpa using hlen, fun j => ?_⟩
  · show v.InsertInt (Int.ofNat i) x = _
    simp only [InsertInt, std_copy_backward, if_pos hi, hr, ArrayPtr.write_of_lt _ _ _ hlt]
  · rw [List.getElem?_set]
    by_cases h1 : j = i
    · subst h1
      simp [hlt]
    · have h1' : ¬ i = j := fun h => h1 h.symm
      rw [if_neg h1', if_neg h1, hget j]
      by_cases h2 : i < j ∧ j < v.size_ + 1
      · have h3 : v.size_ + 1 - (v.size_ - i) ≤ j ∧ j < v.size_ + 1 := by omega
        have h4 : v.size_ - (v.size_ + 1 - j) = j - 1 := by omega
        rw [if_pos h2, if_pos h3, h4]
      · have h3 : ¬ (v.size_ + 1 - (v.size_ - i) ≤ j ∧ j < v.size_ + 1) := by omega
        rw [if_neg h2, if_neg h3]

theorem insert_live_aux (l : List T) (s i : Nat) (x : T) (m : List T) (hi : i ≤ s)
    (hs : s ≤ l.length)
    (hm : ∀ j, j < s + 1 → m[j]? = if j = i then some x else if i < j then l[j - 1]? else l[j]?) :
    m.take (s + 1) = (l.take s).take i ++ x :: (l.take s).drop i := by
  apply List.ext_getElem?
  intro j
  rw [List.getElem?_take, List.getElem?_append, List.length_take, List.length_take,
    Nat.min_eq_left hs, Nat.min_eq_left hi, List.getElem?_take, List.getElem?_take]
  by_cases h1 : j < i
  · have h2 : j < s + 1 := by omega
    have h3 : j < s := by omega
    have h4 : ¬ j = i := by omega
    have h5 : ¬ i < j := by omega
    rw [if_pos h2, if_pos h1, if_pos h1, if_pos h3, hm j h2, if_neg h4, if_neg h5]
  · rw [if_neg h1]
    by_cases h2 : j = i
    · subst h2
      have h3 : j < s + 1 := by omega
      rw [if_pos h3, hm j h3, if_pos rfl]
      simp
    · obtain ⟨k, hk⟩ : ∃ k, j - i = k + 1 := ⟨j - i - 1, by omega⟩
      rw [hk, List.getElem?_cons_succ, List.getElem?_drop, List.getElem?_take]
      have h6 : i + k = j - 1 := by omega
      rw [h6]
      by_cases h3 : j < s + 1
      · have h4 : i < j := by omega
        have h5 : j - 1 < s := by omega
        rw [if_pos h3, hm j h3, if_neg h2, if_pos h4, if_pos h5]
      · have h5 : ¬ j - 1 < s := by omega
        rw [if_neg h3, if_neg h5]

/-- What `Insert` does when the vector has a free slot, or is full with at least
two elements. -/
theorem Insert_ok [Inhabited T] (v : SimpleVector T) (i : Nat) (x : T) (hv : v.Valid)
    (hi : i ≤ v.size_) (h31 : i < 2 ^ 31) (hroom : v.size_ < v.capacity_ ∨ 2 ≤ v.size_) :
    ∃ w, v.Insert i x = .ok (w, i) ∧ w.size_ = v.size_ + 1 ∧ w.Valid ∧
      w.live = v.live.take i ++ x :: v.live.drop i := by
  obtain ⟨hsc, hcl⟩ := hv
  by_cases hfree : v.capacity_ > v.size_
  · obtain ⟨r, hr, hlen, hget⟩ := InsertInt_ok v i x hi (by omega)
    refine ⟨{ v with vector_ := r, size_ := v.size_ + 1 }, ?_, rfl, ?_, ?_⟩
    · have e := toInt32_of_lt i h31
      simp only [Insert, if_pos hfree, e, hr]
    · constructor
      · show v.size_ + 1 ≤ v.capacity_
        omega
      · show v.capacity_ = r.length
        omega
    · show r.take (v.size_ + 1) = _
      apply insert_live_aux v.vector_ v.size_ i x r hi (by omega)
      intro j hj
      rw [hget j]
      by_cases h1 : j = i
      · rw [if_pos h1, if_pos h1]
      · rw [if_neg h1, if_neg h1]
        by_cases h2 : i < j
        · rw [if_pos ⟨h2, hj⟩, if_pos h2]
        · rw [if_neg (fun h => h2 h.1), if_neg h2]
  · have h2 : 2 ≤ v.size_ := by omega
    obtain ⟨u, hu, husize, hucap, hulen, huold, hunew⟩ := Resize_ok v (v.size_ + 1) ⟨hsc, hcl⟩
    have hgrow : v.size_ + 1 > v.capacity_ := by omega
    rw [if_pos hgrow] at hucap
    have hcap2 : v.size_ + 2 ≤ u.capacity_ := by
      rw [hucap]
      have := Nat.le_max_right (v.size_ + 1) (v.capacity_ * 2)
      omega
    obtain ⟨r, hr, hlen, hget⟩ := InsertInt_ok u i x (by omega) (by omega)
    refine ⟨{ u with vector_ := r }, ?_, husize, ?_, ?_⟩
    · have e := toInt32_of_lt i h31
      simp only [Insert, if_neg hfree, hu, e, hr]
    · constructor
      · show u.size_ ≤ u.capacity_
        omega
      · show u.capacity_ = r.length
        omega
    · show r.take u.size_ = _
      rw [husize]
      apply insert_live_aux v.vector_ v.size_ i x r hi (by omega)
      intro j hj
      rw [hget j]
      by_cases h1 : j = i
      · rw [if_pos h1, if_pos h1]
      · rw [if_neg h1, if_neg h1]
        by_cases h3 : i < j
        · have h4 : i < j ∧ j < u.size_ + 1 := by omega
          rw [if_pos h4, if_pos h3, huold (j - 1) (by omega)]
        · have h4 : ¬ (i < j ∧ j < u.size_ + 1) := fun h => h3 h.1
          rw [if_neg h4, if_neg h3, huold j (by omega)]

end InsertLemmas


section CopyLemmas

variable {T : Type}

theorem ofSize_ok [Inhabited T] (n : Nat) :
    (ofSize n : Res (SimpleVector T)) =
      .ok { vector_ := List.replicate n default, size_ := n, capacity_ := n } := by
  obtain ⟨r, hr, hlen, hget⟩ :=
    fillLoop_spec (default : T) n 0 (ArrayPtr.make n) (by simp [ArrayPtr.make])
  have hrep : r = List.replicate n default := by
    apply List.ext_getElem?
    intro j
    rw [hget j, List.getElem?_replicate]
    by_cases h : j < n
    · have : 0 ≤ j ∧ j < 0 + n := by omega
      rw [if_pos this, if_pos h]
    · have : ¬ (0 ≤ j ∧ j < 0 + n) := by omega
      rw [if_neg this, if_neg h, ArrayPtr.make, List.getElem?_replicate, if_neg h]
  subst hrep
  simp [ofSize, std_fill, hr]

/-- The copy constructor on a vector that satisfies the representation
invariant: the new block holds the live elements and nothing else. -/
theorem copy_ok [Inhabited T] (other : SimpleVector T) (hv : other.Valid) :
    copy other = .ok { vector_ := other.live, size_ := other.size_, capacity_ := other.size_ } := by
  obtain ⟨hsc, hcl⟩ := hv
  obtain ⟨r, hr, hlen, hget⟩ :=
    copyLoop_spec other.vector_ other.size_ 0 0 (List.replicate other.size_ (default : T))
      (by omega) (by simp)
  have hlive : r = other.live := by
    apply List.ext_getElem?
    intro j
    rw [hget j, live_getElem?]
    by_cases h : j < other.size_
    · have : 0 ≤ j ∧ j < 0 + other.size_ := by omega
      rw [if_pos this, if_pos h]
      simp
    · have : ¬ (0 ≤ j ∧ j < 0 + other.size_) := by omega
      rw [if_neg this, if_neg h, List.getElem?_replicate, if_neg h]
  subst hlive
  simp [copy, GetSize, ofSize_ok, std_copy, hr, swap]

theorem equalLoop_spec [DecidableEq T] (a b : ArrayPtr T) : ∀ (n first1 first2 : Nat),
    first1 + n ≤ a.length → first2 + n ≤ b.length →
    equalLoop a b n first1 first2 =
      .ok (decide ((a.drop first1).take n = (b.drop first2).take n)) := by
  intro n
  induction n with
  | zero =>
    intro first1 first2 _ _
    simp [equalLoop]
  | succ n ih =>
    intro first1 first2 h1 h2
    have ha : first1 < a.length := by omega
    have hb : first2 < b.length := by omega
    rw [List.drop_eq_getElem_cons ha, List.drop_eq_getElem_cons hb, List.take_succ_cons,
      List.take_succ_cons]
    simp only [equalLoop, ArrayPtr.read_of_lt _ _ ha, ArrayPtr.read_of_lt _ _ hb,
      ih (first1 + 1) (first2 + 1) (by omega) (by omega)]
    by_cases hxy : a[first1] = b[first2]
    · simp [hxy]
    · simp [hxy]

/-- Behaviour of `operator==` when the right-hand block is at least as long as the left-hand
live range: the left-hand live elements are compared with as many slots of the
right-hand block, whatever the right-hand size is. -/
theorem op_eq_ok [DecidableEq T] (lhs rhs : SimpleVector T) (hl : lhs.Valid)
    (hr : lhs.size_ ≤ rhs.vector_.length) :
    op_eq lhs rhs = .ok (decide (lhs.live = rhs.vector_.take lhs.size_)) := by
  obtain ⟨hsc, hcl⟩ := hl
  have := equalLoop_spec lhs.vector_ rhs.vector_ lhs.size_ 0 0 (by omega) (by omega)
  simpa [op_eq, std_equal, live] using this

end CopyLemmas


/-! ## The claims -/

section Claims

variable {T : Type}

/-- C1 (the code departs from the claim): `Insert(begin(), 99)` on the empty,
default-constructed vector does not produce the vector `{99}`.  `Resize(1)`
gives a block of one slot and already sets `size_ = 1`, so the backward shift
`copy_backward(begin(), end(), end() + 1)` writes slot 1 of a one-slot block. -/
theorem Insert_empty_faults :
    (new : SimpleVector Int).Insert 0 99 = .error .undefinedBehaviour ∧
      (new : SimpleVector Int).Resize 1 = .ok { vector_ := [0], size_ := 1, capacity_ := 1 } ∧
      std_copy_backward ([0] : ArrayPtr Int) 0 1 2 = .error .undefinedBehaviour := by
  decide

/-- C2 (the code departs from the claim): `operator==` answers `true` for the
vectors `{1, 2}` and `{1, 2, 3}`, whose sizes differ: `std::equal` is given the
left-hand range only. -/
theorem op_eq_prefix_true :
    ofList [1, 2] = .ok sample12 ∧ ofList [1, 2, 3] = .ok sample123 ∧
      sample12.GetSize ≠ sample123.GetSize ∧ op_eq sample12 sample123 = .ok true := by
  decide

/-- C3 (the code departs from the claim): after the move assignment
`B = std::move(A)` with `A = {1, 2, 3}` and `B` empty, `B` holds the three
elements, and `A` has lost its block but still reports size 3 and capacity 3. -/
theorem moveAssign_keeps_source_counters :
    (moveAssign new sample123).1 = sample123 ∧
      (moveAssign new sample123).2.GetSize = 3 ∧
      (moveAssign new sample123).2.GetCapacity = 3 ∧
      (moveAssign new sample123).2.vector_ = [] := by
  decide

/-- C4: the move constructor gives the new vector the size, the capacity and the
block (so the elements, in order) of its argument, and leaves the argument with
size 0 and capacity 0. -/
theorem moveConstruct_contract (A : SimpleVector T) :
    (moveConstruct A).1.GetSize = A.GetSize ∧
      (moveConstruct A).1.GetCapacity = A.GetCapacity ∧
      (∀ i, (moveConstruct A).1.get i = A.get i) ∧
      (moveConstruct A).1.live = A.live ∧
      (moveConstruct A).2.GetSize = 0 ∧
      (moveConstruct A).2.GetCapacity = 0 :=
  ⟨rfl, rfl, fun _ => rfl, rfl, rfl, rfl⟩

/-- What the copy constructor gives on a vector `A` that satisfies the
representation invariant: a vector `C` of the same size with the same element at
every index below the size, for which `A == C` holds. -/
theorem copy_round_trip [Inhabited T] [DecidableEq T] (A : SimpleVector T) (hv : A.Valid) :
    ∃ C, copyConstruct A = .ok { original := A, duplicate := C } ∧
      C.GetSize = A.GetSize ∧ C.GetCapacity = A.GetSize ∧
      (∀ i, i < A.GetSize → C.get i = A.get i) ∧
      op_eq A C = .ok true := by
  refine ⟨{ vector_ := A.live, size_ := A.size_, capacity_ := A.size_ }, ?_, rfl, rfl, ?_, ?_⟩
  · simp [copyConstruct, copy_ok A hv]
  · intro i hi
    apply get_eq_of_getElem?
    show A.live[i]? = A.vector_[i]?
    rw [live_getElem?, if_pos (show i < A.size_ from hi)]
  · have hlen := live_length A hv
    rw [op_eq_ok A _ hv (by show A.size_ ≤ A.live.length; omega)]
    show Except.ok (decide (A.live = A.live.take A.size_)) = _
    rw [List.take_of_length_le (by omega)]
    simp

/-- C5 (the code departs from the claim): a mutation of the copy that the claim
lists does not leave the program in a state where `A` is known to be what it
was.  The copy `C` of `A = {7}` is full (size 1, capacity 1), and
`C.Insert(C.begin(), 9)` writes slot 2 of the two-slot block that `Resize(2)`
gave it; the copy of the empty vector is full too (size 0, capacity 0), and
`C.Insert(C.begin(), 9)` writes slot 1 of a one-slot block.  A run of mutations
on the copy that does stay inside its block completes. -/
theorem copy_then_Insert_faults :
    sample7.Valid ∧
      copyConstruct sample7 = .ok { original := sample7, duplicate := sample7 } ∧
      mutateCopy [.insert 0 9] { original := sample7, duplicate := sample7 } =
        .error .undefinedBehaviour ∧
      mutateCopy [.insert 1 9] { original := sample7, duplicate := sample7 } =
        .error .undefinedBehaviour ∧
      (new : SimpleVector Int).Valid ∧
      copyConstruct (new : SimpleVector Int) = .ok { original := new, duplicate := new } ∧
      mutateCopy [.insert 0 9] { original := (new : SimpleVector Int), duplicate := new } =
        .error .undefinedBehaviour ∧
      copyConstruct sample12of3 = .ok { original := sample12of3, duplicate := sample12 } ∧
      mutateCopy [.pushBack 9, .assign 0 5, .erase 1, .insert 1 7, .resize 2, .clear]
          { original := sample12of3, duplicate := sample12 } =
        .ok { original := sample12of3,
              duplicate := { vector_ := [5, 7, 9, 0], size_ := 0, capacity_ := 4 } } := by
  decide

/-- C6 (the code departs from the claim): the copy of the vector `{1, 2, 3}` after
one `PopBack` (size 2, capacity 3) has capacity 2, not 3.  The constructor
initialises `capacity_` with `other.GetCapacity()`, and `swap(tmp)` then replaces
it with the capacity of `tmp(other.GetSize())`. -/
theorem copy_capacity_counterexample :
    ofList [1, 2, 3] = .ok sample123 ∧ sample123.PopBack = sample12of3 ∧
      sample12of3.Valid ∧ copy sample12of3 = .ok sample12 ∧
      sample12.GetCapacity = 2 ∧ sample12of3.GetCapacity = 3 := by
  decide

/-- The capacity that the copy constructor does give, on a vector `other` that
satisfies the representation invariant: `other.GetSize()`, the length of the
block of `tmp`. -/
theorem copy_capacity_is_size [Inhabited T] (other : SimpleVector T) (hv : other.Valid) :
    ∃ C, copy other = .ok C ∧ C.GetCapacity = other.GetSize ∧
      C.vector_.length = other.GetSize ∧ C.GetSize ≤ C.GetCapacity ∧
      C.GetCapacity ≤ other.GetCapacity :=
  ⟨{ vector_ := other.live, size_ := other.size_, capacity_ := other.size_ },
    copy_ok other hv, rfl, live_length other hv, Nat.le_refl _, hv.1⟩

/-- C7: on a vector with size `s` and capacity `c` that satisfies the
representation invariant, `Resize(n)` completes with `GetSize() == n`; the
capacity is `max(n, 2 * c)` when `n > c` (so at least `n`) and `c` otherwise; the
elements at the indices below `min(s, n)` are unchanged; and every element at an
index in `[s, n)` is the default value, whatever the slot held before. -/
theorem Resize_contract [Inhabited T] (v : SimpleVector T) (n : Nat) (hv : v.Valid) :
    ∃ w, v.Resize n = .ok w ∧ w.GetSize = n ∧
      w.GetCapacity = (if n > v.GetCapacity then max n (2 * v.GetCapacity) else v.GetCapacity) ∧
      n ≤ w.GetCapacity ∧
      (∀ i, i < min v.GetSize n → w.get i = v.get i) ∧
      (∀ i, v.GetSize ≤ i → i < n → w.get i = .ok default) := by
  obtain ⟨w, hw, hsize, hcap, _, hold, hnew⟩ := Resize_ok v n hv
  refine ⟨w, hw, hsize, ?_, ?_, ?_, ?_⟩
  · show w.capacity_ = if n > v.capacity_ then max n (2 * v.capacity_) else v.capacity_
    rw [hcap, Nat.mul_comm]
  · show n ≤ w.capacity_
    rw [hcap]
    split
    · exact Nat.le_max_left _ _
    · omega
  · intro i hi
    exact get_eq_of_getElem? (hold i (Nat.lt_of_lt_of_le hi (Nat.min_le_left _ _)))
  · intro i h1 h2
    exact get_eq_ok_of_getElem? (hnew i h1 h2)

/-- Witness of C7: `SimpleVector<int> v(3); v.Resize(10)` gives size 10,
capacity 10 and the default value 0 at the indices 3 to 9. -/
theorem Resize_contract_witness :
    ofSize 3 = .ok sampleZeros3 ∧ sampleZeros3.Valid ∧
      ∃ w, sampleZeros3.Resize 10 = .ok w ∧ w.GetSize = 10 ∧ w.GetCapacity = 10 ∧
        10 ≤ w.GetCapacity ∧
        (∀ i, i < 3 → w.get i = sampleZeros3.get i) ∧
        (∀ i, 3 ≤ i → i < 10 → w.get i = .ok 0) :=
  ⟨by decide, by decide, Resize_contract sampleZeros3 10 (by decide)⟩

/-- C8: `N` calls of `PushBack` on a default-constructed vector complete with
`GetSize() == N`, `GetCapacity() >= N` and the pushed values at the indices
`0 .. N-1` in push order; and one `PushBack` on a vector that satisfies the
representation invariant puts the value at the index of the old size and leaves
the earlier elements unchanged. -/
theorem PushBack_contract [Inhabited T] (xs : List T) (v : SimpleVector T) (x : T)
    (hv : v.Valid) :
    (∃ w, pushAll new xs = .ok w ∧ w.GetSize = xs.length ∧ xs.length ≤ w.GetCapacity ∧
        ∀ i, ∀ h : i < xs.length, w.get i = .ok (xs.get ⟨i, h⟩)) ∧
      (∃ w, v.PushBack x = .ok w ∧ w.GetSize = v.GetSize + 1 ∧ w.get v.GetSize = .ok x ∧
        ∀ i, i < v.GetSize → w.get i = v.get i) := by
  constructor
  · obtain ⟨w, hw, hsize, hval, hlive⟩ := pushAll_live xs (new : SimpleVector T) new_valid
    have hs : w.size_ = xs.length := by
      rw [hsize]
      show 0 + xs.length = xs.length
      omega
    have hl : w.live = xs := by
      rw [hlive]
      show List.take 0 [] ++ xs = xs
      simp
    refine ⟨w, hw, hs, ?_, ?_⟩
    · show xs.length ≤ w.capacity_
      have := hval.1
      omega
    · intro i h
      apply get_eq_ok_of_getElem?
      have h1 : w.live[i]? = w.vector_[i]? := by
        rw [live_getElem?, if_pos (by omega)]
      rw [← h1, hl]
      simp [List.getElem?_eq_getElem h]
  · obtain ⟨w, hw, hsize, _, hnew, hold⟩ := PushBack_ok v x hv
    exact ⟨w, hw, hsize, get_eq_ok_of_getElem? hnew, fun i hi => get_eq_of_getElem? (hold i hi)⟩

/-- Witness of C8: the pushes 10, 20, 30 on the empty vector, and one push on
the vector `{1, 2, 3}` after one `PopBack`. -/
theorem PushBack_contract_witness :
    sample12of3.Valid ∧
      (∃ w, pushAll (new : SimpleVector Int) [10, 20, 30] = .ok w ∧ w.GetSize = [10, 20, 30].length ∧
        [10, 20, 30].length ≤ w.GetCapacity ∧
        ∀ i, ∀ h : i < [10, 20, 30].length, w.get i = .ok ([10, 20, 30].get ⟨i, h⟩)) ∧
      (∃ w, sample12of3.PushBack 4 = .ok w ∧ w.GetSize = sample12of3.GetSize + 1 ∧
        w.get sample12of3.GetSize = .ok 4 ∧
        ∀ i, i < sample12of3.GetSize → w.get i = sample12of3.get i) :=
  ⟨by decide, PushBack_contract [10, 20, 30] sample12of3 4 (by decide)⟩

/-- C9: on a vector that satisfies the representation invariant, `Erase` at an
index `i` below the size completes, leaves the live elements `old[0..i)`
followed by `old[i+1..size)`, decreases the size by one, keeps the capacity, and
returns the iterator `begin() + i`. -/
theorem Erase_contract (v : SimpleVector T) (i : Nat) (hv : v.Valid) (hi : i < v.GetSize) :
    ∃ w, v.Erase i = .ok (w, i) ∧ w.live = v.live.take i ++ v.live.drop (i + 1) ∧
      w.GetSize + 1 = v.GetSize ∧ w.GetCapacity = v.GetCapacity := by
  obtain ⟨w, hw, hsize, hcap, _, hlive⟩ := Erase_ok v i hv hi
  refine ⟨w, hw, hlive, ?_, hcap⟩
  show w.size_ + 1 = v.size_
  have : i < v.size_ := hi
  omega

/-- Witness of C9: erasing the middle element of `{1, 2, 3}`. -/
theorem Erase_contract_witness :
    sample123.Valid ∧ 1 < sample123.GetSize ∧
      sample123.Erase 1 = .ok ({ vector_ := [1, 3, 3], size_ := 2, capacity_ := 3 }, 1) ∧
      ∃ w, sample123.Erase 1 = .ok (w, 1) ∧
        w.live = sample123.live.take 1 ++ sample123.live.drop (1 + 1) ∧
        w.GetSize + 1 = sample123.GetSize ∧ w.GetCapacity = sample123.GetCapacity :=
  ⟨by decide, by decide, by decide, Erase_contract sample123 1 (by decide) (by decide)⟩

/-- What `Insert` followed by `Erase` at the same offset does when the vector has
a free slot, or is full with at least two elements: the live elements and the
size are restored. -/
theorem insertThenErase_ok [Inhabited T] (v : SimpleVector T) (p : Nat) (x : T)
    (hv : v.Valid) (hp : p ≤ v.size_) (h31 : p < 2 ^ 31)
    (hroom : v.size_ < v.capacity_ ∨ 2 ≤ v.size_) :
    ∃ w, insertThenErase v p x = .ok (w, p) ∧ w.live = v.live ∧ w.size_ = v.size_ := by
  obtain ⟨u, hu, husize, huval, hulive⟩ := Insert_ok v p x hv hp h31 hroom
  obtain ⟨w, hw, hwsize, _, _, hwlive⟩ := Erase_ok u p huval (by omega)
  refine ⟨w, ?_, ?_, by omega⟩
  · simp only [insertThenErase, hu, hw]
  · have hlen : (v.live.take p).length = p := by
      rw [List.length_take, live_length v hv]
      omega
    rw [hwlive, hulive, List.take_left' hlen]
    have hd : List.drop (p + 1) (List.take p v.live ++ x :: List.drop p v.live) =
        List.drop p v.live := by
      have h1 : List.take p v.live ++ x :: List.drop p v.live =
          (List.take p v.live ++ [x]) ++ List.drop p v.live := by simp
      rw [h1]
      exact List.drop_left' (by simp [hlen])
    rw [hd, List.take_append_drop]

/-- C10 (the code departs from the claim): `Insert(begin(), 9)` followed by
`Erase(begin())` on the vector `{7}` does not restore `{7}`: the `Insert` on the
full one-element vector grows the block to two slots and then shifts into
slot 2. -/
theorem insertThenErase_full_faults :
    ofList [7] = .ok sample7 ∧ sample7.Valid ∧
      sample7.Insert 0 9 = .error .undefinedBehaviour ∧
      insertThenErase sample7 0 9 = .error .undefinedBehaviour ∧
      insertThenErase sample7 1 9 = .error .undefinedBehaviour := by
  decide

end Claims

section ReserveLemmas

variable {T : Type}

/-- What `Reserve` does to a vector that satisfies the representation invariant. -/
theorem Reserve_ok [Inhabited T] (v : SimpleVector T) (k : Nat) (hv : v.Valid) :
    ∃ w, v.Reserve k = .ok w ∧ (k ≤ v.capacity_ → w = v) ∧
      (v.capacity_ < k → w.capacity_ = k) ∧ w.size_ = v.size_ ∧ w.Valid ∧
      (∀ j, j < v.size_ → w.vector_[j]? = v.vector_[j]?) := by
  obtain ⟨hsc, hcl⟩ := hv
  by_cases hk : k ≤ v.capacity_
  · refine ⟨v, ?_, fun _ => rfl, fun h => ?_, rfl, ⟨hsc, hcl⟩, fun _ _ => rfl⟩
    · simp [Reserve, hk]
    · omega
  · obtain ⟨r, hr, hlen, hget⟩ :=
      copyLoop_spec v.vector_ v.size_ 0 0 (ArrayPtr.make k) (by omega)
        (by simp [ArrayPtr.make]; omega)
    refine ⟨{ vector_ := r, size_ := v.size_, capacity_ := k }, ?_, fun h => absurd h hk,
      fun _ => rfl, rfl, ?_, ?_⟩
    · simp [Reserve, hk, hr]
    · constructor
      · show v.size_ ≤ k
        omega
      · show k = r.length
        simp [hlen, ArrayPtr.make]
    · intro j hj
      have : 0 ≤ j ∧ j < 0 + v.size_ := by omega
      show r[j]? = v.vector_[j]?
      rw [hget j, if_pos this]
      simp

theorem live_eq_of_prefix {v w : SimpleVector T} (hs : w.size_ = v.size_)
    (h : ∀ j, j < v.size_ → w.vector_[j]? = v.vector_[j]?) : w.live = v.live := by
  apply List.ext_getElem?
  intro j
  rw [live_getElem?, live_getElem?, hs]
  by_cases hj : j < v.size_
  · rw [if_pos hj, if_pos hj, h j hj]
  · rw [if_neg hj, if_neg hj]

end ReserveLemmas


section InvariantLemmas

variable {T : Type}

theorem ofSizeValue_ok [Inhabited T] (n : Nat) (value : T) :
    ofSizeValue n value =
      .ok { vector_ := List.replicate n value, size_ := n, capacity_ := n } := by
  obtain ⟨r, hr, hlen, hget⟩ :=
    fillLoop_spec value n 0 (ArrayPtr.make n : ArrayPtr T) (by simp [ArrayPtr.make])
  have hrep : r = List.replicate n value := by
    apply List.ext_getElem?
    intro j
    rw [hget j, List.getElem?_replicate]
    by_cases h : j < n
    · have : 0 ≤ j ∧ j < 0 + n := by omega
      rw [if_pos this, if_pos h]
    · have : ¬ (0 ≤ j ∧ j < 0 + n) := by omega
      rw [if_neg this, if_neg h, ArrayPtr.make, List.getElem?_replicate, if_neg h]
  subst hrep
  simp [ofSizeValue, std_fill, hr]

theorem initLoop_spec : ∀ (init : List T) (i : Nat) (tmp : ArrayPtr T),
    i + init.length ≤ tmp.length →
    ∃ r, initLoop init i tmp = .ok r ∧ r.length = tmp.length ∧
      ∀ j, r[j]? = if i ≤ j ∧ j < i + init.length then init[j - i]? else tmp[j]? := by
  intro init
  induction init with
  | nil =>
    intro i tmp _
    refine ⟨tmp, rfl, rfl, fun j => ?_⟩
    have : ¬ (i ≤ j ∧ j < i + ([] : List T).length) := by
      simp
    rw [if_neg this]
  | cons x rest ih =>
    intro i tmp h
    have hlen : (x :: rest).length = rest.length + 1 := rfl
    have hlt : i < tmp.length := by omega
    obtain ⟨r, hr, hrl, hget⟩ := ih (i + 1) (tmp.set i x) (by simp; omega)
    refine ⟨r, ?_, by simpa using hrl, fun j => ?_⟩
    · simp [initLoop, ArrayPtr.write_of_lt _ _ _ hlt, hr]
    · rw [hget j, List.getElem?_set, hlen]
      by_cases h1 : i = j
      · subst h1
        have h2 : ¬ (i + 1 ≤ i ∧ i < i + 1 + rest.length) := by omega
        have h3 : i ≤ i ∧ i < i + (rest.length + 1) := by omega
        rw [if_neg h2, if_pos rfl, if_pos hlt, if_pos h3]
        simp
      · by_cases h2 : i + 1 ≤ j ∧ j < i + 1 + rest.length
        · have h3 : i ≤ j ∧ j < i + (rest.length + 1) := by omega
          obtain ⟨m, hm⟩ : ∃ m, j - i = m + 1 := ⟨j - i - 1, by omega⟩
          have h4 : j - (i + 1) = m := by omega
          rw [if_pos h2, if_pos h3, hm, h4, List.getElem?_cons_succ]
        · have h3 : ¬ (i ≤ j ∧ j < i + (rest.length + 1)) := by omega
          rw [if_neg h2, if_neg h3, if_neg h1]

theorem ofList_ok [Inhabited T] (init : List T) :
    ofList init = .ok { vector_ := init, size_ := init.length, capacity_ := init.length } := by
  obtain ⟨r, hr, hlen, hget⟩ :=
    initLoop_spec init 0 (ArrayPtr.make init.length : ArrayPtr T) (by simp [ArrayPtr.make])
  have hrep : r = init := by
    apply List.ext_getElem?
    intro j
    rw [hget j]
    by_cases h : j < init.length
    · have : 0 ≤ j ∧ j < 0 + init.length := by omega
      rw [if_pos this]
      simp
    · have : ¬ (0 ≤ j ∧ j < 0 + init.length) := by omega
      rw [if_neg this, ArrayPtr.make, List.getElem?_replicate, if_neg h]
      exact (List.getElem?_eq_none (by omega)).symm
  subst hrep
  simp [ofList, hr]

theorem ArrayPtr.write_length {a r : ArrayPtr T} {i : Nat} {x : T}
    (h : a.write i x = .ok r) : r.length = a.length := by
  unfold ArrayPtr.write at h
  split at h
  · simp only [Except.ok.injEq] at h
    rw [← h]
    simp
  · simp at h

theorem copyBackwardLoop_length : ∀ (n last d_last : Nat) (buf r : ArrayPtr T),
    copyBackwardLoop n last d_last buf = .ok r → r.length = buf.length := by
  intro n
  induction n with
  | zero =>
    intro last d_last buf r h
    simp only [copyBackwardLoop, Except.ok.injEq] at h
    rw [h]
  | succ n ih =>
    intro last d_last buf r h
    cases last with
    | zero => simp [copyBackwardLoop] at h
    | succ l =>
      cases d_last with
      | zero => simp [copyBackwardLoop] at h
      | succ d =>
        simp only [copyBackwardLoop] at h
        split at h
        · split at h
          · rename_i buf1 hw
            rw [ih _ _ _ _ h, ArrayPtr.write_length hw]
          · simp at h
        · simp at h

theorem InsertInt_length {v w : SimpleVector T} {index : Int} {x : T}
    (h : v.InsertInt index x = .ok w) :
    w.vector_.length = v.vector_.length ∧ w.size_ = v.size_ ∧ w.capacity_ = v.capacity_ := by
  unfold InsertInt at h
  split at h
  · split at h
    · rename_i buf hb
      split at h
      · rename_i buf1 hw
        simp only [Except.ok.injEq] at h
        subst h
        refine ⟨?_, rfl, rfl⟩
        show buf1.length = v.vector_.length
        rw [ArrayPtr.write_length hw]
        unfold std_copy_backward at hb
        split at hb
        · exact copyBackwardLoop_length _ _ _ _ _ hb
        · simp at hb
      · simp at h
    · simp at h
  · simp at h

/-- Whenever `Insert` completes on a vector that satisfies the representation
invariant, the vector it leaves satisfies it too, with one more element. -/
theorem Insert_valid_of_ok [Inhabited T] {v w : SimpleVector T} {i k : Nat} {x : T}
    (hv : v.Valid) (h : v.Insert i x = .ok (w, k)) : w.Valid ∧ w.size_ = v.size_ + 1 := by
  unfold Insert at h
  split at h
  · rename_i hfree
    split at h
    · rename_i v1 h1
      simp only [Except.ok.injEq, Prod.mk.injEq] at h
      obtain ⟨hw, _⟩ := h
      subst hw
      obtain ⟨hl, hs, hc⟩ := InsertInt_length h1
      obtain ⟨hsc, hcl⟩ := hv
      refine ⟨⟨?_, ?_⟩, ?_⟩
      · show v1.size_ + 1 ≤ v1.capacity_
        omega
      · show v1.capacity_ = v1.vector_.length
        omega
      · show v1.size_ + 1 = v.size_ + 1
        omega
    · simp at h
  · split at h
    · rename_i u hu
      split at h
      · rename_i v2 h2
        simp only [Except.ok.injEq, Prod.mk.injEq] at h
        obtain ⟨hw, _⟩ := h
        subst hw
        obtain ⟨hl, hs, hc⟩ := InsertInt_length h2
        obtain ⟨u1, hu1, husize, hucap, hulen, _, _⟩ := Resize_ok v (v.size_ + 1) hv
        rw [hu] at hu1
        simp only [Except.ok.injEq] at hu1
        subst hu1
        have hle : v.size_ + 1 ≤ u.capacity_ := by
          rw [hucap]
          split
          · exact Nat.le_max_left _ _
          · omega
        refine ⟨⟨?_, ?_⟩, ?_⟩
        · omega
        · omega
        · omega
      · simp at h
    · simp at h

end InvariantLemmas

section CapacityLemmas

variable {T : Type}

/-- The capacity after one `PushBack` on a vector that satisfies the
representation invariant. -/
theorem PushBack_capacity [Inhabited T] (v : SimpleVector T) (x : T) (hv : v.Valid) :
    ∃ w, v.PushBack x = .ok w ∧ w.size_ = v.size_ + 1 ∧ w.Valid ∧
      w.capacity_ = (if v.size_ + 1 > v.capacity_ then max (v.size_ + 1) (v.capacity_ * 2)
        else v.capacity_) := by
  obtain ⟨r, hr, hsize, hcap, hlen, _, _⟩ := Resize_ok v (v.size_ + 1) hv
  have hle : v.size_ + 1 ≤ r.capacity_ := by
    rw [hcap]
    split
    · exact Nat.le_max_left _ _
    · omega
  have hlt : v.size_ < r.vector_.length := by omega
  refine ⟨{ r with vector_ := r.vector_.set v.size_ x }, ?_, hsize, ?_, hcap⟩
  · simp [PushBack, hr, hsize, ArrayPtr.write_of_lt _ _ _ hlt]
  · constructor
    · show r.size_ ≤ r.capacity_
      omega
    · show r.capacity_ = (r.vector_.set v.size_ x).length
      simpa using hlen

theorem pushAll_capacity [Inhabited T] : ∀ (xs : List T) (v : SimpleVector T), v.Valid →
    v.size_ + xs.length ≤ v.capacity_ →
    ∃ u, pushAll v xs = .ok u ∧ u.capacity_ = v.capacity_ ∧ u.size_ = v.size_ + xs.length := by
  intro xs
  induction xs with
  | nil =>
    intro v _ _
    exact ⟨v, rfl, rfl, rfl⟩
  | cons x rest ih =>
    intro v hv hroom
    have hlen : (x :: rest).length = rest.length + 1 := rfl
    obtain ⟨v1, h1, hs1, hv1, hc1⟩ := PushBack_capacity v x hv
    have hno : ¬ v.size_ + 1 > v.capacity_ := by omega
    rw [if_neg hno] at hc1
    obtain ⟨u, hu, hcu, hsu⟩ := ih v1 hv1 (by omega)
    refine ⟨u, ?_, by omega, by omega⟩
    simp [pushAll, h1, hu]

theorem Resize_valid [Inhabited T] (v : SimpleVector T) (n : Nat) (hv : v.Valid) :
    ∃ w, v.Resize n = .ok w ∧ w.Valid := by
  obtain ⟨w, hw, hsize, hcap, hlen, _, _⟩ := Resize_ok v n hv
  refine ⟨w, hw, ?_, hlen⟩
  rw [hsize, hcap]
  split
  · exact Nat.le_max_left _ _
  · omega

theorem copy_valid [Inhabited T] (other : SimpleVector T) (ho : other.Valid) :
    ∃ w, copy other = .ok w ∧ w.Valid ∧ w.size_ = other.size_ ∧ w.live = other.live ∧
      (∀ j, j < other.size_ → w.vector_[j]? = other.vector_[j]?) := by
  have hlen := live_length other ho
  refine ⟨{ vector_ := other.live, size_ := other.size_, capacity_ := other.size_ },
    copy_ok other ho, ⟨Nat.le_refl _, hlen.symm⟩, rfl, ?_, ?_⟩
  · show other.live.take other.size_ = other.live
    exact List.take_of_length_le (by omega)
  · intro j hj
    show other.live[j]? = other.vector_[j]?
    rw [live_getElem?, if_pos hj]

theorem op_le_eq_op_ge [LT T] [DecidableRel (fun (x y : T) => x < y)] (lhs rhs : SimpleVector T) :
    op_le lhs rhs = op_ge lhs rhs := rfl

end CapacityLemmas

section GrowthLemmas

variable {T : Type}

theorem PushBack_grown [Inhabited T] (v : SimpleVector T) (r : Nat) (x : T)
    (hg : v.GrownByPushes r) :
    ∃ w, v.PushBack x = .ok w ∧ w.size_ = v.size_ + 1 ∧
      w.GrownByPushes (r + (if v.ResizeAllocates (v.size_ + 1) then 1 else 0)) := by
  obtain ⟨hv, hshape⟩ := hg
  obtain ⟨w, hw, hsize, hval, hcap⟩ := PushBack_capacity v x hv
  refine ⟨w, hw, hsize, hval, ?_⟩
  rcases hshape with ⟨hr, hs, hc⟩ | ⟨k, hr, hc, h1, h2, h3⟩
  · have halloc : v.size_ + 1 > v.capacity_ := by omega
    have hc1 : w.capacity_ = 2 ^ 0 := by
      rw [hcap, if_pos halloc, hs, hc]
      rfl
    right
    refine ⟨0, ?_, hc1, by omega, by rw [hsize, hs]; exact Nat.le_refl _, ?_⟩
    · simp [ResizeAllocates, halloc, hr]
    · rw [hsize, hs]
      show 1 < 2 * 1
      omega
  · have hpos : 1 ≤ 2 ^ k := Nat.one_le_two_pow
    have hsucc : 2 ^ (k + 1) = 2 ^ k * 2 := pow_succ 2 k
    by_cases halloc : v.size_ + 1 > v.capacity_
    · have hc1 : w.capacity_ = 2 ^ (k + 1) := by
        rw [hcap, if_pos halloc, hc, hsucc]
        exact Nat.max_eq_right (by omega)
      right
      refine ⟨k + 1, ?_, hc1, by omega, by omega, by omega⟩
      simp [ResizeAllocates, halloc, hr]
    · have hc1 : w.capacity_ = 2 ^ k := by
        rw [hcap, if_neg halloc, hc]
      right
      refine ⟨k, ?_, hc1, by omega, by omega, by omega⟩
      simp [ResizeAllocates, halloc, hr]

theorem pushAllCount_grown [Inhabited T] : ∀ (xs : List T) (v : SimpleVector T) (r : Nat),
    v.GrownByPushes r →
    ∃ w c, pushAllCount v xs = .ok (w, c) ∧ pushAll v xs = .ok w ∧
      w.size_ = v.size_ + xs.length ∧ w.GrownByPushes (r + c) := by
  intro xs
  induction xs with
  | nil =>
    intro v r hg
    exact ⟨v, 0, rfl, rfl, rfl, hg⟩
  | cons x rest ih =>
    intro v r hg
    obtain ⟨v1, h1, hs1, hg1⟩ := PushBack_grown v r x hg
    obtain ⟨w, c, hcount, hrun, hs, hgw⟩ := ih v1 _ hg1
    refine ⟨w, (if v.ResizeAllocates (v.size_ + 1) then 1 else 0) + c, ?_, ?_, ?_, ?_⟩
    · simp only [pushAllCount, h1, hcount]
    · simp only [pushAll, h1, hrun]
    · rw [hs, hs1, List.length_cons]
      omega
    · rw [← Nat.add_assoc]
      exact hgw

theorem new_grown : (new : SimpleVector T).GrownByPushes 0 :=
  ⟨new_valid, Or.inl ⟨rfl, rfl, rfl⟩⟩

end GrowthLemmas

section ClaimsContinued

variable {T : Type}

/-- C11: on a vector with size `s` and capacity `c` that satisfies the
representation invariant, `Reserve(k)` completes; it returns the vector as it was
when `k <= c`, and sets the capacity to exactly `k` otherwise; in both cases the
size stays `s` and the elements at the indices below `s` are the same, in the
same order. -/
theorem Reserve_contract [Inhabited T] (v : SimpleVector T) (k : Nat) (hv : v.Valid) :
    ∃ w, v.Reserve k = .ok w ∧ (k ≤ v.GetCapacity → w = v) ∧
      (v.GetCapacity < k → w.GetCapacity = k) ∧ w.GetSize = v.GetSize ∧
      (∀ i, i < v.GetSize → w.get i = v.get i) ∧ w.live = v.live := by
  obtain ⟨w, hw, hle, hgt, hsize, _, hold⟩ := Reserve_ok v k hv
  exact ⟨w, hw, hle, hgt, hsize, fun i hi => get_eq_of_getElem? (hold i hi),
    live_eq_of_prefix hsize hold⟩

/-- Witness of C11: `Reserve(5)` on the vector `{1, 2, 3}` after one `PopBack`
(size 2, capacity 3). -/
theorem Reserve_contract_witness :
    sample12of3.Valid ∧
      sample12of3.Reserve 5 = .ok { vector_ := [1, 2, 0, 0, 0], size_ := 2, capacity_ := 5 } ∧
      sample12of3.Reserve 3 = .ok sample12of3 ∧
      ∃ w, sample12of3.Reserve 5 = .ok w ∧ (5 ≤ sample12of3.GetCapacity → w = sample12of3) ∧
        (sample12of3.GetCapacity < 5 → w.GetCapacity = 5) ∧ w.GetSize = sample12of3.GetSize ∧
        (∀ i, i < sample12of3.GetSize → w.get i = sample12of3.get i) ∧
        w.live = sample12of3.live :=
  ⟨by decide, by decide, by decide, Reserve_contract sample12of3 5 (by decide)⟩

/-- C12: on a vector that satisfies the representation invariant, `Reserve(k)`
completes with a vector on which `Reserve(j)`, for `j <= k`, completes and
changes nothing: same size, capacity and block. -/
theorem Reserve_again_no_change [Inhabited T] (v : SimpleVector T) (k j : Nat)
    (hv : v.Valid) (hjk : j ≤ k) :
    ∃ w, v.Reserve k = .ok w ∧ w.Reserve j = .ok w := by
  obtain ⟨w, hw, hle, hgt, _, _, _⟩ := Reserve_ok v k hv
  refine ⟨w, hw, ?_⟩
  have hcap : j ≤ w.capacity_ := by
    by_cases hk : k ≤ v.capacity_
    · rw [hle hk]
      omega
    · rw [hgt (by omega)]
      exact hjk
  simp [Reserve, hcap]

/-- Witness of C12: `Reserve(5)` then `Reserve(4)` on the vector `{1, 2, 3}` after
one `PopBack`. -/
theorem Reserve_again_no_change_witness :
    sample12of3.Valid ∧ 4 ≤ 5 ∧
      ∃ w, sample12of3.Reserve 5 = .ok w ∧ w.Reserve 4 = .ok w :=
  ⟨by decide, by decide, Reserve_again_no_change sample12of3 5 4 (by decide) (by decide)⟩

/-- C13: `At(index)` reports `std::out_of_range` exactly when
`index >= GetSize()`; when `index < GetSize()` its outcome is that of
`operator[](index)`; and the call leaves the vector as it was, also when it
fails. -/
theorem At_contract (v : SimpleVector T) (index : Nat) :
    (v.At index = .error .outOfRange ↔ v.GetSize ≤ index) ∧
      (index < v.GetSize → v.At index = v.get index) ∧
      (AtCall v index).2 = v.At index ∧ (AtCall v index).1 = v := by
  refine ⟨?_, ?_, rfl, rfl⟩
  · constructor
    · intro h
      by_cases hlt : index < v.size_
      · simp only [At, if_pos hlt, ArrayPtr.read] at h
        split at h <;> simp at h
      · exact Nat.le_of_not_lt hlt
    · intro h
      have hlt : ¬ index < v.size_ := Nat.not_lt.mpr h
      simp [At, hlt]
  · intro h
    have hlt : index < v.size_ := h
    simp [At, hlt, get]

/-- Witness of C13: `At(100)` on the vector `{1, 2, 3}` reports out-of-range, and
`At(1)` is the element `operator[](1)`. -/
theorem At_contract_witness :
    sample123.At 100 = .error .outOfRange ∧ sample123.At 1 = .ok 2 ∧
      ((sample123.At 100 = .error .outOfRange ↔ sample123.GetSize ≤ 100) ∧
        (100 < sample123.GetSize → sample123.At 100 = sample123.get 100) ∧
        (AtCall sample123 100).2 = sample123.At 100 ∧ (AtCall sample123 100).1 = sample123) :=
  ⟨by decide, by decide, At_contract sample123 100⟩

/-- C14 (the code departs from the claim): `operator<=` answers `false` for
`{1} <= {2}` and `true` for `{2} <= {1}`.  Its body is `!(lhs < rhs)`, the body of
`operator>=`, where `!(rhs < lhs)` is meant. -/
theorem op_le_is_op_ge :
    ofList [1] = .ok sample1 ∧ ofList [2] = .ok sample2 ∧
      op_lt sample1 sample2 = .ok true ∧ op_lt sample2 sample1 = .ok false ∧
      op_le sample1 sample2 = .ok false ∧ op_le sample2 sample1 = .ok true := by
  decide


/-- Where the representation invariant, `size <= capacity` and `capacity` equal to
the length of the owned block, is established and kept: it holds for the
default-constructed vector and for the vectors built from a count, a count and a
value, an initializer list, a copy of a vector that satisfies it, and a
reservation; and on a vector that satisfies it, `PushBack`, `PopBack`, `Erase` at
an index below the size, `Resize`, `Reserve`, `Clear`, `swap` and copy assignment
with a vector that satisfies it complete and leave the receiver satisfying it.
`Insert` is the exception: it leaves the invariant satisfied when it completes,
and it completes at a position up to the size only when a slot is free or the
vector holds at least two elements. -/
theorem invariant_kept_where_defined [Inhabited T] (v other : SimpleVector T) (hv : v.Valid)
    (ho : other.Valid) (n i : Nat) (x : T) (init : List T) :
    (new : SimpleVector T).Valid ∧
      (∃ w, (ofSize n : Res (SimpleVector T)) = .ok w ∧ w.Valid) ∧
      (∃ w, ofSizeValue n x = .ok w ∧ w.Valid) ∧
      (∃ w, ofList init = .ok w ∧ w.Valid) ∧
      (∃ w, copy other = .ok w ∧ w.Valid) ∧
      (∃ w, (ofReserve (SimpleVectorModel.Reserve n) : Res (SimpleVector T)) = .ok w ∧ w.Valid) ∧
      (∃ w, v.PushBack x = .ok w ∧ w.Valid) ∧
      v.PopBack.Valid ∧
      (∀ w k, v.Insert i x = .ok (w, k) → w.Valid) ∧
      (i ≤ v.GetSize → i < 2 ^ 31 → (v.GetSize < v.GetCapacity ∨ 2 ≤ v.GetSize) →
        ∃ w, v.Insert i x = .ok (w, i) ∧ w.Valid) ∧
      (i < v.GetSize → ∃ w, v.Erase i = .ok (w, i) ∧ w.Valid) ∧
      (∃ w, v.Resize n = .ok w ∧ w.Valid) ∧
      (∃ w, v.Reserve n = .ok w ∧ w.Valid) ∧
      v.Clear.Valid ∧
      (v.swap other).1.Valid ∧ (v.swap other).2.Valid ∧
      (∃ w, copyAssign v other false = .ok (w, other) ∧ w.Valid) ∧
      copyAssign v v true = .ok (v, v) := by
  refine ⟨new_valid, ?_, ?_, ?_, ?_, ?_, ?_, ?_, ?_, ?_, ?_, Resize_valid v n hv, ?_, ?_, ho, hv,
    ?_, rfl⟩
  · exact ⟨_, ofSize_ok n, Nat.le_refl _, by simp⟩
  · exact ⟨_, ofSizeValue_ok n x, Nat.le_refl _, by simp⟩
  · exact ⟨_, ofList_ok init, Nat.le_refl _, rfl⟩
  · obtain ⟨w, hw, hval, _⟩ := copy_valid other ho
    exact ⟨w, hw, hval⟩
  · obtain ⟨w, hw, _, _, _, hval, _⟩ := Reserve_ok (new : SimpleVector T) n new_valid
    exact ⟨w, hw, hval⟩
  · obtain ⟨w, hw, _, hval, _⟩ := PushBack_ok v x hv
    exact ⟨w, hw, hval⟩
  · obtain ⟨hsc, hcl⟩ := hv
    unfold PopBack
    split
    · exact ⟨by show v.size_ - 1 ≤ v.capacity_; omega, hcl⟩
    · exact ⟨hsc, hcl⟩
  · intro w k h
    exact (Insert_valid_of_ok hv h).1
  · intro hi h31 hroom
    obtain ⟨w, hw, _, hval, _⟩ := Insert_ok v i x hv hi h31 hroom
    exact ⟨w, hw, hval⟩
  · intro hi
    obtain ⟨w, hw, _, _, hval, _⟩ := Erase_ok v i hv hi
    exact ⟨w, hw, hval⟩
  · obtain ⟨w, hw, _, _, _, hval, _⟩ := Reserve_ok v n hv
    exact ⟨w, hw, hval⟩
  · exact ⟨Nat.zero_le _, hv.2⟩
  · obtain ⟨w, hw, hval, _⟩ := copy_valid other ho
    refine ⟨(v.swap w).1, ?_, hval⟩
    simp [copyAssign, hw]

/-- C15 (the code departs from the claim): `Insert` at a valid position does not
keep the representation invariant on every vector that satisfies it.  On the
default-constructed vector, `Insert(begin(), 99)` leaves its block and yields no
vector at all, so none that satisfies the invariant; the same on the full
vector `{7}` at the positions `begin()` and `end()`. -/
theorem Insert_yields_no_valid_vector :
    (new : SimpleVector Int).Valid ∧ 0 ≤ (new : SimpleVector Int).GetSize ∧
      (¬ ∃ w k, (new : SimpleVector Int).Insert 0 99 = .ok (w, k) ∧ w.Valid) ∧
      sample7.Valid ∧ 1 ≤ sample7.GetSize ∧
      (¬ ∃ w k, sample7.Insert 0 9 = .ok (w, k) ∧ w.Valid) ∧
      (¬ ∃ w k, sample7.Insert 1 9 = .ok (w, k) ∧ w.Valid) := by
  have h0 : (new : SimpleVector Int).Insert 0 99 = .error .undefinedBehaviour := by decide
  have h1 : sample7.Insert 0 9 = .error .undefinedBehaviour := by decide
  have h2 : sample7.Insert 1 9 = .error .undefinedBehaviour := by decide
  refine ⟨by decide, by decide, ?_, by decide, by decide, ?_, ?_⟩
  · rintro ⟨w, k, h, _⟩
    rw [h0] at h
    cases h
  · rintro ⟨w, k, h, _⟩
    rw [h1] at h
    cases h
  · rintro ⟨w, k, h, _⟩
    rw [h2] at h
    cases h

/-- C16: for a vector `b` that satisfies the representation invariant and any
vector `a`, the copy assignment `a = b` between distinct objects completes,
leaves `a` with the size of `b` and the same element at every index below it,
and leaves `b` as it was; and the self-assignment `a = a` leaves `a` as it was. -/
theorem copyAssign_contract [Inhabited T] (a b : SimpleVector T) (hb : b.Valid) :
    (∃ a1, copyAssign a b false = .ok (a1, b) ∧ a1.GetSize = b.GetSize ∧
        (∀ i, i < b.GetSize → a1.get i = b.get i) ∧ a1.live = b.live) ∧
      copyAssign a a true = .ok (a, a) := by
  refine ⟨?_, rfl⟩
  obtain ⟨w, hw, _, hsize, hlive, hget⟩ := copy_valid b hb
  refine ⟨(a.swap w).1, ?_, hsize, fun i hi => get_eq_of_getElem? (hget i hi), hlive⟩
  simp [copyAssign, hw]

/-- Witness of C16: `a = b` with `a = {7}` and `b` the vector `{1, 2, 3}` after one
`PopBack`. -/
theorem copyAssign_contract_witness :
    sample12of3.Valid ∧ copyAssign sample7 sample12of3 false = .ok (sample12, sample12of3) ∧
      ((∃ a1, copyAssign sample7 sample12of3 false = .ok (a1, sample12of3) ∧
          a1.GetSize = sample12of3.GetSize ∧
          (∀ i, i < sample12of3.GetSize → a1.get i = sample12of3.get i) ∧
          a1.live = sample12of3.live) ∧
        copyAssign sample7 sample7 true = .ok (sample7, sample7)) :=
  ⟨by decide, by decide, copyAssign_contract sample7 sample12of3 (by decide)⟩

/-- C17: the vector constructed from `Reserve(n)` has size 0, is empty and has
capacity `n`; and any run of at most `n` calls of `PushBack` on it completes with
the capacity still `n`. -/
theorem ofReserve_contract [Inhabited T] (n : Nat) (xs : List T) (hxs : xs.length ≤ n) :
    ∃ w, ofReserve (SimpleVectorModel.Reserve n) = .ok w ∧ w.GetSize = 0 ∧ w.IsEmpty = true ∧
      w.GetCapacity = n ∧
      ∃ u, pushAll w xs = .ok u ∧ u.GetCapacity = n ∧ u.GetSize = xs.length := by
  obtain ⟨w, hw, hle, hgt, hsize, hval, _⟩ := Reserve_ok (new : SimpleVector T) n new_valid
  have hs : w.size_ = 0 := hsize
  have hc : w.capacity_ = n := by
    by_cases hn : n ≤ (new : SimpleVector T).capacity_
    · have h0 : n = 0 := Nat.le_zero.mp hn
      rw [hle hn, h0]
      rfl
    · exact hgt (by omega)
  obtain ⟨u, hu, hcu, hsu⟩ := pushAll_capacity xs w hval (by omega)
  refine ⟨w, hw, hs, ?_, hc, u, hu, by show u.capacity_ = n; omega,
    by show u.size_ = xs.length; omega⟩
  simp [IsEmpty, hs]

/-- Witness of C17: `SimpleVector<int> v(Reserve(3))` and three pushes. -/
theorem ofReserve_contract_witness :
    [10, 20, 30].length ≤ 3 ∧
      ∃ w, (ofReserve (SimpleVectorModel.Reserve 3) : Res (SimpleVector Int)) = .ok w ∧ w.GetSize = 0 ∧
        w.IsEmpty = true ∧ w.GetCapacity = 3 ∧
        ∃ u, pushAll w [10, 20, 30] = .ok u ∧ u.GetCapacity = 3 ∧
          u.GetSize = [10, 20, 30].length :=
  ⟨by decide, ofReserve_contract 3 [10, 20, 30] (by decide)⟩

/-- C18: the constructor `SimpleVector(n, value)` completes with size `n`,
capacity `n` and `value` at every index below `n`. -/
theorem ofSizeValue_contract [Inhabited T] (n : Nat) (value : T) :
    ∃ w, ofSizeValue n value = .ok w ∧ w.GetSize = n ∧ w.GetCapacity = n ∧
      ∀ i, i < n → w.get i = .ok value := by
  refine ⟨_, ofSizeValue_ok n value, rfl, rfl, fun i hi => ?_⟩
  apply get_eq_ok_of_getElem?
  show (List.replicate n value)[i]? = some value
  rw [List.getElem?_replicate, if_pos hi]

/-- Witness of C18: `SimpleVector<int>(3, 7)` is `{7, 7, 7}`. -/
theorem ofSizeValue_contract_witness :
    ofSizeValue 3 (7 : Int) = .ok { vector_ := [7, 7, 7], size_ := 3, capacity_ := 3 } ∧
      ∃ w, ofSizeValue 3 (7 : Int) = .ok w ∧ w.GetSize = 3 ∧ w.GetCapacity = 3 ∧
        ∀ i, i < 3 → w.get i = .ok 7 :=
  ⟨by decide, ofSizeValue_contract 3 7⟩

/-- C19 (the code departs from the claim): the shift of `Insert` leaves the
block.  On the empty vector `Resize(1)` gives a block of one slot, and the shift
`copy_backward(begin(), begin() + 1, begin() + 2)` reads slot 0 and writes
slot 1; on the vector `{7}` with the position `end()`, `Resize(2)` gives a block
of two slots, and the shift reads slot 1 and writes slot 2. -/
theorem Insert_shift_leaves_block :
    (new : SimpleVector Int).Valid ∧
      (new : SimpleVector Int).Resize 1 = .ok { vector_ := [0], size_ := 1, capacity_ := 1 } ∧
      ArrayPtr.read ([0] : ArrayPtr Int) 0 = .ok 0 ∧
      ArrayPtr.write ([0] : ArrayPtr Int) 1 0 = .error .undefinedBehaviour ∧
      InsertInt ({ vector_ := [0], size_ := 1, capacity_ := 1 } : SimpleVector Int) (toInt32 0) 99 =
        .error .undefinedBehaviour ∧
      sample7.Valid ∧
      sample7.Resize 2 = .ok { vector_ := [7, 0], size_ := 2, capacity_ := 2 } ∧
      ArrayPtr.read ([7, 0] : ArrayPtr Int) 1 = .ok 0 ∧
      ArrayPtr.write ([7, 0] : ArrayPtr Int) 2 0 = .error .undefinedBehaviour ∧
      InsertInt ({ vector_ := [7, 0], size_ := 2, capacity_ := 2 } : SimpleVector Int) (toInt32 1) 9 =
        .error .undefinedBehaviour ∧
      sample7.Insert 1 9 = .error .undefinedBehaviour := by
  decide


/-- C20: after `N >= 1` calls of `PushBack` on a default-constructed vector the
capacity is the smallest power of two that is at least `N`; the number of calls
that allocated a block is at most `floor(log2(N)) + 2`; and the next `PushBack`
changes the capacity exactly when `N` is a power of two.  The first `PushBack`
on the empty vector takes the capacity from 0 to 1. -/
theorem PushBack_geometric_growth [Inhabited T] (xs : List T) (x : T) (hN : 1 ≤ xs.length) :
    ∃ w c, pushAll new xs = .ok w ∧ pushAllCount new xs = .ok (w, c) ∧
      (∃ k, w.GetCapacity = 2 ^ k ∧ xs.length ≤ 2 ^ k ∧
        ∀ j, xs.length ≤ 2 ^ j → 2 ^ k ≤ 2 ^ j) ∧
      c ≤ Nat.log 2 xs.length + 2 ∧
      (∃ w1, w.PushBack x = .ok w1 ∧
        (w1.GetCapacity ≠ w.GetCapacity ↔ ∃ j, xs.length = 2 ^ j)) ∧
      ∃ w0, (new : SimpleVector T).PushBack x = .ok w0 ∧ w0.GetCapacity = 1 := by
  obtain ⟨w, c, hcount, hrun, hs, hg⟩ := pushAllCount_grown xs (new : SimpleVector T) 0 new_grown
  have hsize : w.size_ = xs.length := by
    rw [hs]
    show 0 + xs.length = xs.length
    omega
  obtain ⟨hval, hshape⟩ := hg
  rcases hshape with ⟨_, h0, _⟩ | ⟨k, hr, hc, h1, h2, h3⟩
  · omega
  · rw [hsize] at h2 h3
    refine ⟨w, c, hrun, hcount, ⟨k, hc, h2, ?_⟩, ?_, ?_, ?_⟩
    · intro j hj
      by_contra hlt
      have e1 : 2 ^ j < 2 ^ k := Nat.lt_of_not_le hlt
      have hjk : j < k := (Nat.pow_lt_pow_iff_right (by omega)).mp e1
      have hle : 2 ^ (j + 1) ≤ 2 ^ k := Nat.pow_le_pow_right (by omega) hjk
      have hsucc : 2 ^ (j + 1) = 2 ^ j * 2 := pow_succ 2 j
      omega
    · have hck : c = k + 1 := by omega
      cases k with
      | zero => omega
      | succ m =>
        have hsucc : 2 ^ (m + 1) = 2 ^ m * 2 := pow_succ 2 m
        have e1 : 2 ^ m ≤ xs.length := by omega
        have hm : m ≤ Nat.log 2 xs.length := Nat.le_log_of_pow_le (by omega) e1
        omega
    · obtain ⟨w1, hw1, _, _, hcap1⟩ := PushBack_capacity w x hval
      refine ⟨w1, hw1, ?_⟩
      show w1.capacity_ ≠ w.capacity_ ↔ _
      rw [hcap1, hsize, hc]
      constructor
      · intro hne
        by_cases halloc : xs.length + 1 > 2 ^ k
        · exact ⟨k, by omega⟩
        · rw [if_neg halloc] at hne
          exact absurd rfl hne
      · rintro ⟨j, hj⟩
        have e1 : 2 ^ j ≤ 2 ^ k := by omega
        have hjk : j ≤ k := (Nat.pow_le_pow_iff_right (by omega)).mp e1
        have hsucc : 2 ^ (j + 1) = 2 ^ j * 2 := pow_succ 2 j
        have e2 : 2 ^ k < 2 ^ (j + 1) := by omega
        have hkj : k < j + 1 := (Nat.pow_lt_pow_iff_right (by omega)).mp e2
        have hkeq : k = j := by omega
        subst hkeq
        have halloc : xs.length + 1 > 2 ^ k := by omega
        rw [if_pos halloc]
        have := Nat.le_max_left (xs.length + 1) (2 ^ k * 2)
        omega
    · obtain ⟨w0, hw0, _, _, hcap0⟩ := PushBack_capacity (new : SimpleVector T) x new_valid
      refine ⟨w0, hw0, ?_⟩
      show w0.capacity_ = 1
      rw [hcap0]
      rfl

/-- Witness of C20: five pushes on the empty vector give capacity 8 after four
allocations. -/
theorem PushBack_geometric_growth_witness :
    1 ≤ [1, 2, 3, 4, 5].length ∧
      pushAllCount (new : SimpleVector Int) [1, 2, 3, 4, 5] =
        .ok ({ vector_ := [1, 2, 3, 4, 5, 0, 0, 0], size_ := 5, capacity_ := 8 }, 4) ∧
      ∃ w c, pushAll (new : SimpleVector Int) [1, 2, 3, 4, 5] = .ok w ∧
        pushAllCount new [1, 2, 3, 4, 5] = .ok (w, c) ∧
        (∃ k, w.GetCapacity = 2 ^ k ∧ [1, 2, 3, 4, 5].length ≤ 2 ^ k ∧
          ∀ j, [1, 2, 3, 4, 5].length ≤ 2 ^ j → 2 ^ k ≤ 2 ^ j) ∧
        c ≤ Nat.log 2 [1, 2, 3, 4, 5].length + 2 ∧
        (∃ w1, w.PushBack 6 = .ok w1 ∧
          (w1.GetCapacity ≠ w.GetCapacity ↔ ∃ j, [1, 2, 3, 4, 5].length = 2 ^ j)) ∧
        ∃ w0, (new : SimpleVector Int).PushBack 6 = .ok w0 ∧ w0.GetCapacity = 1 :=
  ⟨by decide, by decide, PushBack_geometric_growth [1, 2, 3, 4, 5] 6 (by decide)⟩

end ClaimsContinued

end SimpleVector

end SimpleVectorModel
